import Mathlib

/-!
Verification of `src/routes/portfolio/data_formatter.py`.

The script reads a file, parses it as JSON (`json.loads`), runs the loop

  for i, item in enumerate(data['portfolio']): item['id'] = i

serializes the document back (`json.dumps`, default separators and
`ensure_ascii`), overwrites the file, and prints the serialized text.

The embedding below models JSON values as a tree (value semantics is
faithful: `json.loads` always builds alias-free fresh objects, so the
in-place mutation of the Python loop coincides with the functional
update).  Python dicts are modelled as association lists with unique
keys in insertion order; key assignment replaces the value in place
when the key is present and appends otherwise, exactly as CPython
dicts behave.  JSON numbers are modelled as integers (the repository's
data and the reindex loop only ever produce integers; float literals
are outside the model).  Strings are Unicode scalar sequences (Lean
`String`); the serializer performs the full `ensure_ascii` escaping of
CPython including surrogate pairs, and the parser decodes all JSON
escapes, rejecting lone surrogate escapes (which Lean `Char` cannot
represent; CPython would keep them, a divergence no claim touches).
-/

/-- A JSON value as produced by Python's `json.loads`: `None`, `bool`,
`int`, `str`, `list`, or `dict` with string keys in insertion order. -/
inductive Json where
  | null : Json
  | bool : Bool → Json
  | num : Int → Json
  | str : String → Json
  | arr : List Json → Json
  | obj : List (String × Json) → Json
deriving Repr

/-- Python dict lookup `d[k]` restricted to present keys: first (and,
for dicts, only) binding of `k`. -/
def getKey : List (String × Json) → String → Option Json
  | [], _ => none
  | (k', v) :: rest, k => if k' = k then some v else getKey rest k

/-- Python dict assignment `d[k] = v`: replaces the value in place when
`k` is already bound (keeping its position), appends `(k, v)` at the
end otherwise.  This is exactly CPython's insertion-order semantics. -/
def setKey : List (String × Json) → String → Json → List (String × Json)
  | [], k, v => [(k, v)]
  | (k', v') :: rest, k, v =>
    if k' = k then (k', v) :: rest else (k', v') :: setKey rest k v

/-- Whether a value is a Python dict (a JSON object). -/
def Json.isObj : Json → Bool
  | .obj _ => true
  | _ => false

/-- The exceptions the script can raise, per the error taxonomy of the
spec: `KeyError` (missing dict key), `TypeError` (bad subscript or
non-iterable), and the `json.JSONDecodeError` of `json.loads`. -/
inductive PyError where
  | keyError : String → PyError
  | typeError : PyError
  | parseError : PyError
deriving Repr, DecidableEq

/-- Iteration order of a Python value, as used by `enumerate(x)`:
a list yields its elements, a string its characters (one-character
strings), a dict its keys; `None`, booleans and numbers are not
iterable (`TypeError`). -/
def iterElems : Json → Option (List Json)
  | .arr xs => some xs
  | .str s => some (s.data.map (fun c => .str (String.mk [c])))
  | .obj kvs => some (kvs.map (fun kv => .str kv.1))
  | _ => none

/-- The loop body iterated from index `i`: `item['id'] = i` succeeds
only on a dict (on any other value CPython raises `TypeError`), and the
loop stops at the first failing element. -/
def stampFrom (i : Nat) : List Json → Except PyError (List Json)
  | [] => .ok []
  | .obj kvs :: rest =>
    match stampFrom (i + 1) rest with
    | .error e => .error e
    | .ok ys => .ok (.obj (setKey kvs "id" (.num i)) :: ys)
  | _ :: _ => .error .typeError

/-- Lines 11-12 of `data_formatter.py`:
`for i, item in enumerate(data['portfolio']): item['id'] = i`.
The subscript `data['portfolio']` raises `TypeError` on a non-dict and
`KeyError` on a dict without the key; `enumerate` then requires an
iterable.  When the portfolio value is a list, the loop mutates its
elements in place, so the resulting document carries the stamped list;
when it is a string or a dict, the loop can only complete vacuously
(any yielded element is a string, not a dict) and the document is left
unchanged. -/
def reindex : Json → Except PyError Json
  | .obj kvs =>
    match getKey kvs "portfolio" with
    | none => .error (.keyError "portfolio")
    | some p =>
      match iterElems p with
      | none => .error .typeError
      | some xs =>
        match stampFrom 0 xs with
        | .error e => .error e
        | .ok ys =>
          match p with
          | .arr _ => .ok (.obj (setKey kvs "portfolio" (.arr ys)))
          | _ => .ok (.obj kvs)
  | _ => .error .typeError

/-! ## Serialization, `json.dumps` with default arguments
Default `json.dumps`: item separator is a comma and a space, key
separator a colon and a space, `ensure_ascii=True`: every character
outside the printable ASCII range (or a quote or backslash) is
escaped, using the short escapes for the common control characters,
lowercase `\uXXXX` otherwise, and UTF-16 surrogate pairs above
`0xFFFF`. -/

/-- Lowercase hexadecimal digit for a value below 16. -/
def hexDigitChar (n : Nat) : Char :=
  if n < 10 then Char.ofNat (48 + n) else Char.ofNat (87 + n)

/-- Four lowercase hex digits of a value below `0x10000`. -/
def hex4 (n : Nat) : List Char :=
  [hexDigitChar (n / 4096 % 16), hexDigitChar (n / 256 % 16),
   hexDigitChar (n / 16 % 16), hexDigitChar (n % 16)]

/-- CPython's `py_encode_basestring_ascii` escaping of one character. -/
def escapeChar (c : Char) : List Char :=
  if c = '"' then ['\\', '"']
  else if c = '\\' then ['\\', '\\']
  else if c = '\x08' then ['\\', 'b']
  else if c = '\x0c' then ['\\', 'f']
  else if c = '\n' then ['\\', 'n']
  else if c = '\r' then ['\\', 'r']
  else if c = '\t' then ['\\', 't']
  else if c.toNat < 32 ∨ 126 < c.toNat then
    if c.toNat < 65536 then '\\' :: 'u' :: hex4 c.toNat
    else
      ('\\' :: 'u' :: hex4 (55296 + (c.toNat - 65536) / 1024)) ++
      ('\\' :: 'u' :: hex4 (56320 + (c.toNat - 65536) % 1024))
  else [c]

/-- Escaping of a whole string body. -/
def escChars : List Char → List Char
  | [] => []
  | c :: cs => escapeChar c ++ escChars cs

/-- Decimal digit character. -/
def digitChar (n : Nat) : Char := Char.ofNat (48 + n)

/-- Decimal digits of a natural number, most significant first
(fuel-driven; `natChars` supplies enough fuel). -/
def natCharsAux : Nat → Nat → List Char
  | 0, _ => []
  | fuel + 1, n =>
    if n < 10 then [digitChar n]
    else natCharsAux fuel (n / 10) ++ [digitChar (n % 10)]

/-- Decimal representation of a natural number, as Python prints it. -/
def natChars (n : Nat) : List Char := natCharsAux (n + 1) n

/-- Decimal representation of a Python int: a minus sign and digits. -/
def intChars : Int → List Char
  | .ofNat n => natChars n
  | .negSucc m => '-' :: natChars (m + 1)

mutual
/-- `json.dumps` (default arguments) of one value, as characters. -/
def dumpVal : Json → List Char
  | .null => 'n' :: ['u', 'l', 'l']
  | .bool true => 't' :: ['r', 'u', 'e']
  | .bool false => 'f' :: ['a', 'l', 's', 'e']
  | .num n => intChars n
  | .str s => '"' :: (escChars s.data ++ ['"'])
  | .arr xs => '[' :: (dumpArr xs ++ [']'])
  | .obj kvs => '\x7b' :: (dumpObj kvs ++ ['\x7d'])

/-- Array items joined by a comma and a space. -/
def dumpArr : List Json → List Char
  | [] => []
  | [x] => dumpVal x
  | x :: y :: rest => dumpVal x ++ ',' :: ' ' :: dumpArr (y :: rest)

/-- Object members `"key": value` joined by a comma and a space. -/
def dumpObj : List (String × Json) → List Char
  | [] => []
  | [(k, v)] => '"' :: (escChars k.data ++ '"' :: ':' :: ' ' :: dumpVal v)
  | (k, v) :: m :: rest =>
    ('"' :: (escChars k.data ++ '"' :: ':' :: ' ' :: dumpVal v)) ++
      ',' :: ' ' :: dumpObj (m :: rest)
end

/-- Line 14 of `data_formatter.py`: `json.dumps(data)`. -/
def dumps (d : Json) : String := String.mk (dumpVal d)

/-! ## Parsing, `json.loads`
A faithful executable model of CPython's `json` scanner for
integer-valued documents: optional whitespace around tokens, the four
JSON whitespace characters, objects with string keys where a duplicate
key keeps its first position but the last value (CPython builds the
dict by successive assignment), arrays, `true`/`false`/`null`, strings
with all escapes, and integer numerals (a leading zero ends the
numeral, per the `0|[1-9][0-9]*` grammar).  Fractional and exponent
parts are outside the integer model. -/

/-- The JSON whitespace characters (space, tab, newline, carriage
return). -/
def isWs (c : Char) : Bool := c = ' ' ∨ c = '\t' ∨ c = '\n' ∨ c = '\r'

/-- Drop leading JSON whitespace. -/
def skipWs : List Char → List Char
  | [] => []
  | c :: cs => if isWs c then skipWs cs else c :: cs

/-- Value of a hexadecimal digit character, either case. -/
def hexVal (c : Char) : Option Nat :=
  if 48 ≤ c.toNat ∧ c.toNat ≤ 57 then some (c.toNat - 48)
  else if 97 ≤ c.toNat ∧ c.toNat ≤ 102 then some (c.toNat - 87)
  else if 65 ≤ c.toNat ∧ c.toNat ≤ 70 then some (c.toNat - 55)
  else none

/-- Value of four hexadecimal digit characters. -/
def hex4Val (h1 h2 h3 h4 : Char) : Option Nat :=
  match hexVal h1, hexVal h2, hexVal h3, hexVal h4 with
  | some d1, some d2, some d3, some d4 =>
    some (d1 * 4096 + d2 * 256 + d3 * 16 + d4)
  | _, _, _, _ => none

/-- Prepend a decoded character to the result of scanning the rest of
a string body. -/
def consStr (c : Char) :
    Except PyError (List Char × List Char) →
    Except PyError (List Char × List Char)
  | .ok (s, r) => .ok (c :: s, r)
  | .error e => .error e

/-- One string-body token: the closing quote, one decoded character,
or a malformed head. -/
inductive StrTok where
  | close : List Char → StrTok
  | chr : Char → List Char → StrTok
  | bad : StrTok

/-- Decode the low-surrogate half of a `\uXXXX\uXXXX` pair, given the
value `n` of the high surrogate already read. -/
def surrPair (n : Nat) : List Char → StrTok
  | b1 :: b2 :: g1 :: g2 :: g3 :: g4 :: r3 =>
    if b1 = '\\' ∧ b2 = 'u' then
      match hex4Val g1 g2 g3 g4 with
      | none => .bad
      | some m =>
        if 56320 ≤ m ∧ m < 57344 then
          .chr (Char.ofNat (65536 + (n - 55296) * 1024 + (m - 56320))) r3
        else .bad
    else .bad
  | _ => .bad

/-- Decode the four hex digits after `\u` and, when they form a high
surrogate, the following low-surrogate escape. -/
def uEscape : List Char → StrTok
  | h1 :: h2 :: h3 :: h4 :: r2 =>
    match hex4Val h1 h2 h3 h4 with
    | none => .bad
    | some n =>
      if n < 55296 ∨ 57344 ≤ n then .chr (Char.ofNat n) r2
      else if n < 56320 then surrPair n r2
      else .bad
  | _ => .bad

/-- Decode the character after a backslash. -/
def escTok (esc : Char) (r1 : List Char) : StrTok :=
  if esc = '"' ∨ esc = '\\' ∨ esc = '/' then .chr esc r1
  else if esc = 'b' then .chr '\x08' r1
  else if esc = 'f' then .chr '\x0c' r1
  else if esc = 'n' then .chr '\n' r1
  else if esc = 'r' then .chr '\r' r1
  else if esc = 't' then .chr '\t' r1
  else if esc = 'u' then uEscape r1
  else .bad

/-- Decode the token at the head of a string body: the closing quote,
a raw character (raw control characters are rejected, as by the
default `strict=True`), a short escape, or a `\uXXXX` escape with
surrogate-pair combination.  Lone surrogate escapes are rejected (see
the module comment). -/
def strTok : List Char → StrTok
  | [] => .bad
  | c :: r =>
    if c = '"' then .close r
    else if c = '\\' then
      match r with
      | [] => .bad
      | esc :: r1 => escTok esc r1
    else if c.toNat < 32 then .bad
    else .chr c r

/-- Scan a string body after the opening quote, one token at a time,
collecting the decoded characters until the closing quote. -/
def parseStrAux : Nat → List Char → Except PyError (List Char × List Char)
  | 0, _ => .error .parseError
  | fuel + 1, cs =>
    match strTok cs with
    | .close r => .ok ([], r)
    | .chr ch r => consStr ch (parseStrAux fuel r)
    | .bad => .error .parseError

/-- Parse a string literal after the opening quote. -/
def parseStr (cs : List Char) : Except PyError (String × List Char) :=
  match parseStrAux (cs.length + 1) cs with
  | .ok (s, r) => .ok (String.mk s, r)
  | .error e => .error e

/-- Whether a character is a decimal digit (code 48 to 57). -/
def isDigitCh (c : Char) : Bool := 48 ≤ c.toNat ∧ c.toNat ≤ 57

/-- Split off the longest leading run of decimal digits. -/
def takeDigits : List Char → List Char × List Char
  | [] => ([], [])
  | c :: cs =>
    if isDigitCh c then (c :: (takeDigits cs).1, (takeDigits cs).2)
    else ([], c :: cs)

/-- Numeric value of a digit run, accumulator style. -/
def digitsVal (acc : Nat) : List Char → Nat
  | [] => acc
  | c :: cs => digitsVal (acc * 10 + (c.toNat - 48)) cs

/-- Parse the digits of an integer numeral: `0` stands alone, any
other numeral is a maximal digit run (grammar `0|[1-9][0-9]*`). -/
def parseDigits : List Char → Except PyError (Nat × List Char)
  | [] => .error .parseError
  | c :: cs =>
    if c = '0' then .ok (0, cs)
    else if isDigitCh c then
      .ok (digitsVal (c.toNat - 48) (takeDigits cs).1, (takeDigits cs).2)
    else .error .parseError

/-- Parse an integer numeral with its optional minus sign. -/
def parseNumAt : List Char → Except PyError (Json × List Char)
  | [] => .error .parseError
  | c :: cs =>
    if c = '-' then
      match parseDigits cs with
      | .ok (n, r) => .ok (.num (-(n : Int)), r)
      | .error e => .error e
    else
      match parseDigits (c :: cs) with
      | .ok (n, r) => .ok (.num (n : Int), r)
      | .error e => .error e

mutual
/-- Parse one JSON value, allowing leading whitespace, returning the
unconsumed remainder.  Fuel decreases at each nested call; `loads`
supplies one unit per input character, which covers every document the
serializer produces. -/
def parseVal : Nat → List Char → Except PyError (Json × List Char)
  | 0, _ => .error .parseError
  | fuel + 1, cs =>
    match skipWs cs with
    | [] => .error .parseError
    | c :: rest =>
      if c = '\x7b' then
        match skipWs rest with
        | [] => .error .parseError
        | c2 :: r2 =>
          if c2 = '\x7d' then .ok (.obj [], r2)
          else parseMembers fuel (c2 :: r2) []
      else if c = '[' then
        match skipWs rest with
        | [] => .error .parseError
        | c2 :: r2 =>
          if c2 = ']' then .ok (.arr [], r2)
          else parseElems fuel (c2 :: r2) []
      else if c = '"' then
        match parseStr rest with
        | .ok (s, r) => .ok (.str s, r)
        | .error e => .error e
      else if c = 't' then
        match rest with
        | c1 :: c2 :: c3 :: r =>
          if c1 = 'r' ∧ c2 = 'u' ∧ c3 = 'e' then .ok (.bool true, r)
          else .error .parseError
        | _ => .error .parseError
      else if c = 'f' then
        match rest with
        | c1 :: c2 :: c3 :: c4 :: r =>
          if c1 = 'a' ∧ c2 = 'l' ∧ c3 = 's' ∧ c4 = 'e' then
            .ok (.bool false, r)
          else .error .parseError
        | _ => .error .parseError
      else if c = 'n' then
        match rest with
        | c1 :: c2 :: c3 :: r =>
          if c1 = 'u' ∧ c2 = 'l' ∧ c3 = 'l' then .ok (.null, r)
          else .error .parseError
        | _ => .error .parseError
      else if c = '-' ∨ isDigitCh c then parseNumAt (c :: rest)
      else .error .parseError

/-- Parse the elements of a non-empty array, after the opening
bracket and any whitespace. -/
def parseElems : Nat → List Char → List Json → Except PyError (Json × List Char)
  | 0, _, _ => .error .parseError
  | fuel + 1, cs, acc =>
    match parseVal fuel cs with
    | .error e => .error e
    | .ok (v, r) =>
      match skipWs r with
      | [] => .error .parseError
      | c :: r2 =>
        if c = ',' then parseElems fuel r2 (acc ++ [v])
        else if c = ']' then .ok (.arr (acc ++ [v]), r2)
        else .error .parseError

/-- Parse the members of a non-empty object, positioned at a key (no
leading whitespace).  Members accumulate by dict assignment, so a
duplicate key keeps its first position with the last value, as in
CPython. -/
def parseMembers : Nat → List Char → List (String × Json) →
    Except PyError (Json × List Char)
  | 0, _, _ => .error .parseError
  | fuel + 1, cs, acc =>
    match cs with
    | [] => .error .parseError
    | c :: r =>
      if c = '"' then
        match parseStr r with
        | .error e => .error e
        | .ok (k, r2) =>
          match skipWs r2 with
          | [] => .error .parseError
          | c2 :: r3 =>
            if c2 = ':' then
              match parseVal fuel r3 with
              | .error e => .error e
              | .ok (v, r4) =>
                match skipWs r4 with
                | [] => .error .parseError
                | c3 :: r5 =>
                  if c3 = ',' then
                    parseMembers fuel (skipWs r5) (setKey acc k v)
                  else if c3 = '\x7d' then .ok (.obj (setKey acc k v), r5)
                  else .error .parseError
            else .error .parseError
      else .error .parseError
end

/-- Line 8 of `data_formatter.py`: `json.loads(json_data)`.  Parses
one document and requires only whitespace after it. -/
def loads (s : String) : Except PyError Json :=
  match parseVal (s.data.length + 1) s.data with
  | .error e => .error e
  | .ok (v, rest) =>
    match skipWs rest with
    | [] => .ok v
    | _ => .error .parseError

/-! ## The whole run of the script
The script is a straight line: read, parse, reindex, serialize, write
the file, print.  `run` maps the initial file content to the emitted
side effects, the final file content, and the error that aborted the
run, if any; an aborted run emits nothing and leaves the file as it
was.  `Runs` is the same pipeline as a big-step relation, used to
state determinism. -/

/-- An observable side effect of the script: overwriting the file with
the given text, or printing the given text followed by the platform's
line termination (Python's `print`). -/
inductive Event where
  | fileWrite : String → Event
  | printLine : String → Event
deriving Repr, DecidableEq

/-- Outcome of a run: the side effects in order, the error that ended
the run (if any), and the final content of the file. -/
structure RunResult where
  events : List Event
  error : Option PyError
  finalFile : String
deriving Repr, DecidableEq

/-- The whole script, lines 4-21 of `data_formatter.py`, as a function
from the initial file content to the outcome. -/
def run (content : String) : RunResult :=
  match loads content with
  | .error e => ⟨[], some e, content⟩
  | .ok data =>
    match reindex data with
    | .error e => ⟨[], some e, content⟩
    | .ok d' => ⟨[.fileWrite (dumps d'), .printLine (dumps d')], none, dumps d'⟩

/-- The run of the script as a big-step relation on observable
behavior, mirroring the three ways the straight-line code can go:
parse failure, reindex failure, or full success. -/
inductive Runs : String → RunResult → Prop where
  | parseFail : ∀ content e, loads content = .error e →
      Runs content ⟨[], some e, content⟩
  | reindexFail : ∀ content d e, loads content = .ok d →
      reindex d = .error e → Runs content ⟨[], some e, content⟩
  | success : ∀ content d d', loads content = .ok d → reindex d = .ok d' →
      Runs content
        ⟨[.fileWrite (dumps d'), .printLine (dumps d')], none, dumps d'⟩

/-! ## Well-formedness and size
Every value built by `json.loads` has unique keys in each object
(Python dicts cannot hold a key twice); `wfV` states that invariant.
`jsizeV` bounds the parser fuel needed to re-read a serialized
value. -/

/-- Key list of an association list. -/
def keysOf (kvs : List (String × Json)) : List String := kvs.map Prod.fst

/-- Whether a string occurs in a list. -/
def strMem (k : String) : List String → Bool
  | [] => false
  | x :: xs => k = x || strMem k xs

/-- No string occurs twice. -/
def strNodup : List String → Bool
  | [] => true
  | k :: ks => (!strMem k ks) && strNodup ks

mutual
/-- Unique keys in every object of the value. -/
def wfV : Json → Bool
  | .null => true
  | .bool _ => true
  | .num _ => true
  | .str _ => true
  | .arr xs => wfL xs
  | .obj kvs => strNodup (keysOf kvs) && wfM kvs

/-- Unique keys in every object of each element. -/
def wfL : List Json → Bool
  | [] => true
  | x :: xs => wfV x && wfL xs

/-- Unique keys in every object of each member value. -/
def wfM : List (String × Json) → Bool
  | [] => true
  | kv :: kvs => wfV kv.2 && wfM kvs
end

mutual
/-- Fuel bound for re-parsing a serialized value. -/
def jsizeV : Json → Nat
  | .null => 1
  | .bool _ => 1
  | .num _ => 1
  | .str _ => 1
  | .arr xs => 1 + jsizeL xs
  | .obj kvs => 1 + jsizeM kvs

/-- Fuel bound for the elements of an array. -/
def jsizeL : List Json → Nat
  | [] => 0
  | x :: xs => 1 + jsizeV x + jsizeL xs

/-- Fuel bound for the members of an object. -/
def jsizeM : List (String × Json) → Nat
  | [] => 0
  | kv :: kvs => 1 + jsizeV kv.2 + jsizeM kvs
end

/-- Whether a character list does not begin with a decimal digit, so
that a numeral just before it cannot absorb it. -/
def headNotDigit : List Char → Bool
  | [] => true
  | c :: _ => !isDigitCh c

/-! # Theorems -/

/-! ## Dict algebra -/

theorem getKey_setKey_self (kvs : List (String × Json)) (k : String) (v : Json) :
    getKey (setKey kvs k v) k = some v := by
  induction kvs with
  | nil => simp [setKey, getKey]
  | cons kv rest ih =>
    obtain ⟨k', v'⟩ := kv
    by_cases h : k' = k
    · simp [setKey, getKey, h]
    · simp [setKey, getKey, h, ih]

theorem getKey_setKey_ne (kvs : List (String × Json)) (k k0 : String) (v : Json)
    (h : k0 ≠ k) : getKey (setKey kvs k v) k0 = getKey kvs k0 := by
  induction kvs with
  | nil => simp [setKey, getKey, Ne.symm h]
  | cons kv rest ih =>
    obtain ⟨k', v'⟩ := kv
    by_cases h' : k' = k
    · subst h'
      simp [setKey, getKey, Ne.symm h]
    · by_cases h'' : k' = k0 <;> simp [setKey, getKey, h, h', h'', ih]

theorem setKey_of_getKey_eq (kvs : List (String × Json)) (k : String) (v : Json)
    (h : getKey kvs k = some v) : setKey kvs k v = kvs := by
  induction kvs with
  | nil => simp [getKey] at h
  | cons kv rest ih =>
    obtain ⟨k', v'⟩ := kv
    by_cases h' : k' = k
    · simp [getKey, h'] at h
      simp [setKey, h', h]
    · simp [getKey, h'] at h
      simp [setKey, h', ih h]

theorem setKey_setKey (kvs : List (String × Json)) (k : String) (v w : Json) :
    setKey (setKey kvs k v) k w = setKey kvs k w := by
  induction kvs with
  | nil => simp [setKey]
  | cons kv rest ih =>
    obtain ⟨k', v'⟩ := kv
    by_cases h : k' = k
    · simp [setKey, h]
    · simp [setKey, h, ih]

theorem keysOf_setKey_of_mem (kvs : List (String × Json)) (k : String)
    (v w : Json) (h : getKey kvs k = some w) :
    keysOf (setKey kvs k v) = keysOf kvs := by
  induction kvs with
  | nil => simp [getKey] at h
  | cons kv rest ih =>
    obtain ⟨k', v'⟩ := kv
    by_cases h' : k' = k
    · simp [setKey, h', keysOf]
    · simp [getKey, h'] at h
      simp [setKey, h', keysOf] at ih ⊢
      exact ih h

/-! ## The reindex loop -/

theorem stampFrom_ok_of_all_obj (xs : List Json) (i : Nat)
    (h : ∀ x ∈ xs, x.isObj = true) : ∃ ys, stampFrom i xs = .ok ys := by
  induction xs generalizing i with
  | nil => exact ⟨[], rfl⟩
  | cons x rest ih =>
    match x, h x (by simp) with
    | .obj kvs, _ =>
      obtain ⟨ys, hys⟩ := ih (i + 1) (fun y hy => h y (by simp [hy]))
      exact ⟨Json.obj (setKey kvs "id" (.num i)) :: ys, by simp [stampFrom, hys]⟩

theorem stampFrom_spec (xs : List Json) (i : Nat) (ys : List Json)
    (h : stampFrom i xs = .ok ys) :
    ys.length = xs.length ∧
      ∀ j, j < xs.length → ∃ ekvs, xs[j]? = some (.obj ekvs) ∧
        ys[j]? = some (.obj (setKey ekvs "id" (.num (i + j)))) := by
  induction xs generalizing i ys with
  | nil =>
    simp [stampFrom] at h
    subst h
    simp
  | cons x rest ih =>
    match x with
    | .null | .bool _ | .num _ | .str _ | .arr _ => simp [stampFrom] at h
    | .obj kvs =>
      simp only [stampFrom] at h
      cases hr : stampFrom (i + 1) rest with
      | error e => rw [hr] at h; simp at h
      | ok ys' =>
        rw [hr] at h
        simp at h
        subst h
        obtain ⟨hlen, hidx⟩ := ih (i + 1) ys' hr
        refine ⟨by simp [hlen], ?_⟩
        intro j hj
        cases j with
        | zero => exact ⟨kvs, by simp⟩
        | succ j' =>
          obtain ⟨ekvs, h1, h2⟩ := hidx j' (by simpa using hj)
          refine ⟨ekvs, by simpa using h1, ?_⟩
          simp only [List.getElem?_cons_succ]
          push_cast at h2 ⊢
          rw [show (i : Int) + 1 + (j' : Int) = (i : Int) + ((j' : Int) + 1) from
            by ring] at h2
          exact h2

theorem stampFrom_error_of_exists (xs : List Json) (i : Nat)
    (h : ∃ x ∈ xs, x.isObj = false) : stampFrom i xs = .error .typeError := by
  induction xs generalizing i with
  | nil => simp at h
  | cons x rest ih =>
    match x with
    | .null | .bool _ | .num _ | .str _ | .arr _ => simp [stampFrom]
    | .obj kvs =>
      obtain ⟨y, hy, hy2⟩ := h
      rcases List.mem_cons.mp hy with rfl | hy'
      · simp [Json.isObj] at hy2
      · simp [stampFrom, ih (i + 1) ⟨y, hy', hy2⟩]

theorem stampFrom_stamp_again (xs ys : List Json) (i : Nat)
    (h : stampFrom i xs = .ok ys) : stampFrom i ys = .ok ys := by
  induction xs generalizing i ys with
  | nil =>
    simp [stampFrom] at h
    subst h
    rfl
  | cons x rest ih =>
    match x with
    | .null | .bool _ | .num _ | .str _ | .arr _ => simp [stampFrom] at h
    | .obj kvs =>
      simp only [stampFrom] at h
      cases hr : stampFrom (i + 1) rest with
      | error e => rw [hr] at h; simp at h
      | ok ys' =>
        rw [hr] at h
        simp at h
        subst h
        simp [stampFrom, ih ys' (i + 1) hr, setKey_setKey]

/-! ## Reindex and run helpers -/

theorem reindex_arr (kvs : List (String × Json)) (xs ys : List Json)
    (hp : getKey kvs "portfolio" = some (.arr xs))
    (hs : stampFrom 0 xs = .ok ys) :
    reindex (.obj kvs) = .ok (.obj (setKey kvs "portfolio" (.arr ys))) := by
  simp [reindex, hp, iterElems, hs]

theorem run_ok (content : String) (d d' : Json)
    (h1 : loads content = .ok d) (h2 : reindex d = .ok d') :
    run content =
      ⟨[.fileWrite (dumps d'), .printLine (dumps d')], none, dumps d'⟩ := by
  simp [run, h1, h2]

theorem run_err (content : String) (d : Json) (e : PyError)
    (h1 : loads content = .ok d) (h2 : reindex d = .error e) :
    run content = ⟨[], some e, content⟩ := by
  simp [run, h1, h2]

theorem reindex_reindex (d d' : Json) (h : reindex d = .ok d') :
    reindex d' = .ok d' := by
  match d with
  | .null | .bool _ | .num _ | .str _ | .arr _ => simp [reindex] at h
  | .obj kvs =>
    simp only [reindex] at h
    cases hp : getKey kvs "portfolio" with
    | none => rw [hp] at h; simp at h
    | some p =>
      rw [hp] at h
      cases p with
      | null => simp [iterElems] at h
      | bool b => simp [iterElems] at h
      | num n => simp [iterElems] at h
      | arr xs =>
        simp only [iterElems] at h
        cases hs : stampFrom 0 xs with
        | error e => rw [hs] at h; simp at h
        | ok ys =>
          rw [hs] at h
          simp at h
          subst h
          simp [reindex, getKey_setKey_self, iterElems,
            stampFrom_stamp_again xs ys 0 hs, setKey_setKey]
      | str s =>
        simp only [iterElems] at h
        cases hd : s.data with
        | nil =>
          rw [hd] at h
          simp [stampFrom] at h
          subst h
          simp [reindex, hp, iterElems, hd, stampFrom]
        | cons c cs =>
          rw [hd] at h
          simp [stampFrom] at h
      | obj kvs2 =>
        simp only [iterElems] at h
        cases kvs2 with
        | nil =>
          simp [stampFrom] at h
          subst h
          simp [reindex, hp, iterElems, stampFrom]
        | cons kv rest =>
          simp [stampFrom] at h

/-! ## Claims C1, C2, C3, C4, C8, C9 -/

/-- C1: for every JSON document whose `portfolio` key holds an array of
mapping elements, after the reindex transformation the element at each
zero-based position `i` has its `id` attribute equal to `i`. -/
theorem claim_C1_reindex_ids (kvs : List (String × Json)) (xs : List Json)
    (hp : getKey kvs "portfolio" = some (.arr xs))
    (hobj : ∀ x ∈ xs, x.isObj = true) :
    ∃ kvs' ys, reindex (.obj kvs) = .ok (.obj kvs') ∧
      getKey kvs' "portfolio" = some (.arr ys) ∧
      ys.length = xs.length ∧
      ∀ i, i < ys.length → ∃ ekvs, ys[i]? = some (.obj ekvs) ∧
        getKey ekvs "id" = some (.num i) := by
  obtain ⟨ys, hys⟩ := stampFrom_ok_of_all_obj xs 0 hobj
  obtain ⟨hlen, hidx⟩ := stampFrom_spec xs 0 ys hys
  refine ⟨setKey kvs "portfolio" (.arr ys), ys, reindex_arr kvs xs ys hp hys,
    getKey_setKey_self .., hlen, ?_⟩
  intro i hi
  obtain ⟨ekvs, h1, h2⟩ := hidx i (hlen ▸ hi)
  exact ⟨setKey ekvs "id" (.num i), by simpa using h2, getKey_setKey_self ..⟩

/-- C1 witness: the spec's example scenario, with the stamped ids read
back off the result. -/
theorem claim_C1_witness :
    ∃ kvs' ys,
      reindex (.obj [("portfolio", .arr [.obj [("name", .str "A")],
        .obj [("name", .str "B"), ("id", .num 99)]])]) = .ok (.obj kvs') ∧
      getKey kvs' "portfolio" = some (.arr ys) ∧
      ys.length = [Json.obj [("name", .str "A")],
        Json.obj [("name", .str "B"), ("id", .num 99)]].length ∧
      ∀ i, i < ys.length → ∃ ekvs, ys[i]? = some (.obj ekvs) ∧
        getKey ekvs "id" = some (.num i) :=
  claim_C1_reindex_ids _ _ rfl (by decide)

/-- C2: the reindex transformation keeps the element order (position
`i` of the new array is the stamp of position `i` of the old), keeps
every non-`id` field of every element, and keeps every part of the
document outside the `portfolio` array (key order and all other
values); only the `id` field of each element is written. -/
theorem claim_C2_frame (kvs : List (String × Json)) (xs : List Json)
    (hp : getKey kvs "portfolio" = some (.arr xs))
    (hobj : ∀ x ∈ xs, x.isObj = true) :
    ∃ kvs' ys, reindex (.obj kvs) = .ok (.obj kvs') ∧
      keysOf kvs' = keysOf kvs ∧
      (∀ k, k ≠ "portfolio" → getKey kvs' k = getKey kvs k) ∧
      getKey kvs' "portfolio" = some (.arr ys) ∧
      ys.length = xs.length ∧
      ∀ i, i < xs.length → ∃ ekvs, xs[i]? = some (.obj ekvs) ∧
        ys[i]? = some (.obj (setKey ekvs "id" (.num i))) ∧
        ∀ k, k ≠ "id" → getKey (setKey ekvs "id" (.num i)) k = getKey ekvs k := by
  obtain ⟨ys, hys⟩ := stampFrom_ok_of_all_obj xs 0 hobj
  obtain ⟨hlen, hidx⟩ := stampFrom_spec xs 0 ys hys
  refine ⟨setKey kvs "portfolio" (.arr ys), ys, reindex_arr kvs xs ys hp hys,
    keysOf_setKey_of_mem kvs "portfolio" _ _ hp,
    fun k hk => getKey_setKey_ne kvs "portfolio" k _ hk,
    getKey_setKey_self .., hlen, ?_⟩
  intro i hi
  obtain ⟨ekvs, h1, h2⟩ := hidx i hi
  exact ⟨ekvs, h1, by simpa using h2,
    fun k hk => getKey_setKey_ne ekvs "id" k _ hk⟩

/-- C2 witness: the frame conditions at the spec's example scenario. -/
theorem claim_C2_witness :
    ∃ kvs' ys,
      reindex (.obj [("portfolio", .arr [.obj [("name", .str "A")],
        .obj [("name", .str "B"), ("id", .num 99)]]), ("x", .num 7)]) =
        .ok (.obj kvs') ∧
      keysOf kvs' = keysOf [("portfolio", Json.arr [.obj [("name", .str "A")],
        .obj [("name", .str "B"), ("id", .num 99)]]), ("x", Json.num 7)] ∧
      (∀ k, k ≠ "portfolio" → getKey kvs' k =
        getKey [("portfolio", Json.arr [.obj [("name", .str "A")],
          .obj [("name", .str "B"), ("id", .num 99)]]), ("x", Json.num 7)] k) ∧
      getKey kvs' "portfolio" = some (.arr ys) ∧
      ys.length = [Json.obj [("name", .str "A")],
        Json.obj [("name", .str "B"), ("id", .num 99)]].length ∧
      ∀ i, i < [Json.obj [("name", .str "A")],
          Json.obj [("name", .str "B"), ("id", .num 99)]].length →
        ∃ ekvs, [Json.obj [("name", .str "A")],
            Json.obj [("name", .str "B"), ("id", .num 99)]][i]? =
              some (.obj ekvs) ∧
          ys[i]? = some (.obj (setKey ekvs "id" (.num i))) ∧
          ∀ k, k ≠ "id" →
            getKey (setKey ekvs "id" (.num i)) k = getKey ekvs k :=
  claim_C2_frame _ _ rfl (by decide)

/-- C3: the reindex transformation is idempotent on documents with a
`portfolio` array of mapping elements: reindexing the result again
returns the same document. -/
theorem claim_C3_idempotent (kvs : List (String × Json)) (xs : List Json)
    (hp : getKey kvs "portfolio" = some (.arr xs))
    (hobj : ∀ x ∈ xs, x.isObj = true) :
    ∃ d', reindex (.obj kvs) = .ok d' ∧ reindex d' = .ok d' := by
  obtain ⟨ys, hys⟩ := stampFrom_ok_of_all_obj xs 0 hobj
  exact ⟨_, reindex_arr kvs xs ys hp hys,
    reindex_reindex _ _ (reindex_arr kvs xs ys hp hys)⟩

/-- C3 witness: idempotence at the spec's example scenario. -/
theorem claim_C3_witness :
    ∃ d', reindex (.obj [("portfolio", .arr [.obj [("name", .str "A")],
      .obj [("name", .str "B"), ("id", .num 99)]])]) = .ok d' ∧
      reindex d' = .ok d' :=
  claim_C3_idempotent _ _ rfl (by decide)

/-- C4: on a document that is a mapping without a `portfolio` key the
run stops with the `KeyError` from `data['portfolio']`, performs no
write and no print, and the file keeps its prior content. -/
theorem claim_C4_missing_key (content : String) (kvs : List (String × Json))
    (h1 : loads content = .ok (.obj kvs))
    (h2 : getKey kvs "portfolio" = none) :
    run content = ⟨[], some (.keyError "portfolio"), content⟩ := by
  have h3 : reindex (.obj kvs) = .error (.keyError "portfolio") := by
    simp [reindex, h2]
  simp [run, h1, h3]

/-- C4 witness: a mapping with a single unrelated key. -/
theorem claim_C4_witness :
    run "\x7b\"a\": 1\x7d" =
      ⟨[], some (.keyError "portfolio"), "\x7b\"a\": 1\x7d"⟩ :=
  claim_C4_missing_key _ [("a", .num 1)] rfl rfl

/-- C8: on every successful run the side effects are exactly the file
write of the serialized document followed by the print of the very
same text (with the trailing line termination of `print`), in that
order. -/
theorem claim_C8_write_then_print (content : String) (d d' : Json)
    (h1 : loads content = .ok d) (h2 : reindex d = .ok d') :
    run content =
      ⟨[.fileWrite (dumps d'), .printLine (dumps d')], none, dumps d'⟩ := by
  simp [run, h1, h2]

/-- C8 witness: the spec's example scenario, with both emitted texts
equal to the serialized document. -/
theorem claim_C8_witness :
    run "\x7b\"portfolio\": [\x7b\"name\": \"A\"\x7d]\x7d" =
      ⟨[.fileWrite (dumps (.obj [("portfolio",
          .arr [.obj [("name", .str "A"), ("id", .num 0)]])])),
        .printLine (dumps (.obj [("portfolio",
          .arr [.obj [("name", .str "A"), ("id", .num 0)]])]))], none,
        dumps (.obj [("portfolio",
          .arr [.obj [("name", .str "A"), ("id", .num 0)]])])⟩ :=
  claim_C8_write_then_print _ (.obj [("portfolio",
    .arr [.obj [("name", .str "A")]])]) _ rfl rfl

/-- C9: a document whose `portfolio` is an empty array is left
unchanged by the transformation, and the run succeeds, writing and
printing the unchanged document's serialization. -/
theorem claim_C9_empty_portfolio (content : String) (kvs : List (String × Json))
    (h1 : loads content = .ok (.obj kvs))
    (h2 : getKey kvs "portfolio" = some (.arr [])) :
    reindex (.obj kvs) = .ok (.obj kvs) ∧
      run content = ⟨[.fileWrite (dumps (.obj kvs)),
        .printLine (dumps (.obj kvs))], none, dumps (.obj kvs)⟩ := by
  have hre : reindex (.obj kvs) = .ok (.obj kvs) := by
    have h3 := reindex_arr kvs [] [] h2 rfl
    rwa [setKey_of_getKey_eq kvs "portfolio" (.arr []) h2] at h3
  exact ⟨hre, by simp [run, h1, hre]⟩

/-- C9 witness: the empty-portfolio document round-trips through the
run unchanged. -/
theorem claim_C9_witness :
    reindex (.obj [("portfolio", .arr [])]) =
      .ok (.obj [("portfolio", .arr [])]) ∧
      run "\x7b\"portfolio\": []\x7d" =
        ⟨[.fileWrite (dumps (.obj [("portfolio", .arr [])])),
          .printLine (dumps (.obj [("portfolio", .arr [])]))], none,
          dumps (.obj [("portfolio", .arr [])])⟩ :=
  claim_C9_empty_portfolio _ [("portfolio", .arr [])] rfl rfl

/-! ## Claim C6: corrected
As frozen, C6 states that every document whose `portfolio` value is
not a sequence fails.  The code disproves it: a `portfolio` value that
is an empty dict is iterated vacuously by `enumerate`, the loop body
never runs, and the run succeeds and writes the file. -/

/-- C6 counterexample: the document with `portfolio` bound to an empty
mapping (not a sequence) parses, and the run succeeds, writing the
file, contrary to the claim that it must fail without writing. -/
theorem claim_C6_counterexample :
    loads "\x7b\"portfolio\": \x7b\x7d\x7d" =
      .ok (.obj [("portfolio", .obj [])]) ∧
    run "\x7b\"portfolio\": \x7b\x7d\x7d" =
      ⟨[.fileWrite "\x7b\"portfolio\": \x7b\x7d\x7d",
        .printLine "\x7b\"portfolio\": \x7b\x7d\x7d"], none,
        "\x7b\"portfolio\": \x7b\x7d\x7d"⟩ :=
  ⟨rfl, rfl⟩

/-- C6 amended: a run on a document whose `portfolio` value is not
iterable, or yields under iteration an element that is not a mapping,
fails with a `TypeError` before the file is written, leaving the prior
content; but a `portfolio` value that is an empty mapping is iterated
vacuously and the run succeeds, writing the file. -/
theorem claim_C6_amended :
    (∀ (content : String) (kvs : List (String × Json)) (p : Json),
      loads content = .ok (.obj kvs) →
      getKey kvs "portfolio" = some p →
      (iterElems p = none ∨
        ∃ xs, iterElems p = some xs ∧ ∃ x ∈ xs, x.isObj = false) →
      run content = ⟨[], some .typeError, content⟩) ∧
    (∀ (content : String) (kvs : List (String × Json)),
      loads content = .ok (.obj kvs) →
      getKey kvs "portfolio" = some (.obj []) →
      run content = ⟨[.fileWrite (dumps (.obj kvs)),
        .printLine (dumps (.obj kvs))], none, dumps (.obj kvs)⟩) := by
  constructor
  · intro content kvs p h1 h2 h3
    have hre : reindex (.obj kvs) = .error .typeError := by
      rcases h3 with h3 | ⟨xs, hxs, hbad⟩
      · simp [reindex, h2, h3]
      · simp [reindex, h2, hxs, stampFrom_error_of_exists xs 0 hbad]
    exact run_err content _ _ h1 hre
  · intro content kvs h1 h2
    have hre : reindex (.obj kvs) = .ok (.obj kvs) := by
      simp [reindex, h2, iterElems, stampFrom]
    exact run_ok content _ _ h1 hre

/-- C6 witness: a numeric `portfolio` value (not iterable) aborts the
run with a `TypeError` and no write; an empty-mapping `portfolio`
value lets the run succeed and write. -/
theorem claim_C6_witness :
    run "\x7b\"portfolio\": 5\x7d" =
      ⟨[], some .typeError, "\x7b\"portfolio\": 5\x7d"⟩ ∧
    run "\x7b\"portfolio\": \x7b\x7d\x7d" =
      ⟨[.fileWrite (dumps (.obj [("portfolio", .obj [])])),
        .printLine (dumps (.obj [("portfolio", .obj [])]))], none,
        dumps (.obj [("portfolio", .obj [])])⟩ :=
  ⟨claim_C6_amended.1 _ [("portfolio", .num 5)] (.num 5) rfl rfl (Or.inl rfl),
   claim_C6_amended.2 _ [("portfolio", .obj [])] rfl rfl⟩

/-! ## Claim C10: determinism -/

theorem runs_run (content : String) : Runs content (run content) := by
  cases h1 : loads content with
  | error e =>
    have hr : run content = ⟨[], some e, content⟩ := by simp [run, h1]
    rw [hr]
    exact Runs.parseFail content e h1
  | ok d =>
    cases h2 : reindex d with
    | error e =>
      have hr : run content = ⟨[], some e, content⟩ := by simp [run, h1, h2]
      rw [hr]
      exact Runs.reindexFail content d e h1 h2
    | ok d' =>
      have hr : run content = ⟨[.fileWrite (dumps d'), .printLine (dumps d')],
          none, dumps d'⟩ := by simp [run, h1, h2]
      rw [hr]
      exact Runs.success content d d' h1 h2

/-- C10: the run is deterministic in the file content: two runs of the
script on identical input content produce the same side effects (file
text and printed text), the same final file, and the same error, the
script consuming no input other than the file. -/
theorem claim_C10_deterministic (content : String) (r1 r2 : RunResult)
    (h1 : Runs content r1) (h2 : Runs content r2) : r1 = r2 := by
  cases h1 with
  | parseFail e he =>
    cases h2 with
    | parseFail e2 he2 => rw [he] at he2; cases he2; rfl
    | reindexFail d2 e2 hl2 hr2 => rw [he] at hl2; cases hl2
    | success d2 d2' hl2 hr2 => rw [he] at hl2; cases hl2
  | reindexFail d e hl hr =>
    cases h2 with
    | parseFail e2 he2 => rw [he2] at hl; cases hl
    | reindexFail d2 e2 hl2 hr2 =>
      rw [hl] at hl2
      cases hl2
      rw [hr] at hr2
      cases hr2
      rfl
    | success d2 d2' hl2 hr2 =>
      rw [hl] at hl2
      cases hl2
      rw [hr] at hr2
      cases hr2
  | success d d' hl hr =>
    cases h2 with
    | parseFail e2 he2 => rw [he2] at hl; cases hl
    | reindexFail d2 e2 hl2 hr2 =>
      rw [hl] at hl2
      cases hl2
      rw [hr] at hr2
      cases hr2
    | success d2 d2' hl2 hr2 =>
      rw [hl] at hl2
      cases hl2
      rw [hr] at hr2
      cases hr2
      rfl

/-- C10 witness: both behaviors of the run on a concrete content,
one by the relation, one by the function, coincide. -/
theorem claim_C10_witness :
    (⟨[], some (.keyError "portfolio"), "\x7b\x7d"⟩ : RunResult) =
      run "\x7b\x7d" :=
  claim_C10_deterministic "\x7b\x7d" _ _
    (Runs.reindexFail _ (.obj []) _ rfl rfl) (runs_run _)

/-! ## Claim C5: parse failures
Every failure the parser can produce is the `ParseError`; the run then
stops before any write. -/

theorem consStr_error (c : Char) (r : Except PyError (List Char × List Char))
    (e : PyError) (h : consStr c r = .error e) : r = .error e := by
  match r with
  | .ok (s, r') => simp [consStr] at h
  | .error e' =>
    simp only [consStr] at h
    cases h
    rfl

theorem parseStrAux_error (fuel : Nat) :
    ∀ cs e, parseStrAux fuel cs = .error e → e = .parseError := by
  induction fuel with
  | zero =>
    intro cs e h
    simp only [parseStrAux] at h
    cases h
    rfl
  | succ fuel ih =>
    intro cs e h
    simp only [parseStrAux] at h
    cases ht : strTok cs with
    | close r => rw [ht] at h; cases h
    | chr ch r =>
      rw [ht] at h
      exact ih _ _ (consStr_error _ _ _ h)
    | bad =>
      rw [ht] at h
      cases h
      rfl

theorem parseStr_error (cs : List Char) (e : PyError)
    (h : parseStr cs = .error e) : e = .parseError := by
  simp only [parseStr] at h
  split at h
  · cases h
  · cases h
    exact parseStrAux_error _ _ _ (by assumption)

theorem parseDigits_error (cs : List Char) (e : PyError)
    (h : parseDigits cs = .error e) : e = .parseError := by
  rcases cs with _ | ⟨c, cs'⟩ <;> simp only [parseDigits] at h
  · cases h
    rfl
  · repeat' split at h
    all_goals first | (cases h; rfl) | (cases h; done)

theorem parseNumAt_error (cs : List Char) (e : PyError)
    (h : parseNumAt cs = .error e) : e = .parseError := by
  rcases cs with _ | ⟨c, cs'⟩ <;> simp only [parseNumAt] at h
  · cases h
    rfl
  · repeat' split at h
    all_goals
      first
        | (cases h; done)
        | (cases h; exact parseDigits_error _ _ (by assumption))

set_option maxHeartbeats 1600000 in
theorem parser_error (fuel : Nat) :
    (∀ cs e, parseVal fuel cs = .error e → e = .parseError) ∧
    (∀ cs acc e, parseElems fuel cs acc = .error e → e = .parseError) ∧
    (∀ cs acc e, parseMembers fuel cs acc = .error e → e = .parseError) := by
  induction fuel with
  | zero =>
    refine ⟨?_, ?_, ?_⟩
    · intro cs e h
      simp only [parseVal] at h
      cases h
      rfl
    · intro cs acc e h
      simp only [parseElems] at h
      cases h
      rfl
    · intro cs acc e h
      simp only [parseMembers] at h
      cases h
      rfl
  | succ fuel ih =>
    obtain ⟨ihV, ihE, ihM⟩ := ih
    refine ⟨?_, ?_, ?_⟩
    · intro cs e h
      simp only [parseVal] at h
      repeat' split at h
      all_goals
        first
          | (cases h; rfl)
          | (cases h; done)
          | exact ihV _ _ h
          | exact ihE _ _ _ h
          | exact ihM _ _ _ h
          | (cases h; exact parseStr_error _ _ (by assumption))
          | exact parseNumAt_error _ _ h
    · intro cs acc e h
      simp only [parseElems] at h
      repeat' split at h
      all_goals
        first
          | (cases h; rfl)
          | (cases h; done)
          | exact ihE _ _ _ h
          | (cases h; exact ihV _ _ (by assumption))
    · intro cs acc e h
      simp only [parseMembers] at h
      repeat' split at h
      all_goals
        first
          | (cases h; rfl)
          | (cases h; done)
          | exact ihM _ _ _ h
          | (cases h; exact ihV _ _ (by assumption))
          | (cases h; exact parseStr_error _ _ (by assumption))

theorem loads_error (s : String) (e : PyError) (h : loads s = .error e) :
    e = .parseError := by
  simp only [loads] at h
  repeat' split at h
  all_goals
    first
      | (cases h; rfl)
      | (cases h; done)
      | (cases h; exact (parser_error _).1 _ _ (by assumption))

/-- C5: when the file content is not valid JSON (the parse fails), the
failure is the `ParseError`, the run stops before the write, no side
effect is emitted, and the file keeps its prior content. -/
theorem claim_C5_invalid_json (content : String) (e : PyError)
    (h : loads content = .error e) :
    e = .parseError ∧ run content = ⟨[], some .parseError, content⟩ := by
  have he := loads_error content e h
  subst he
  exact ⟨rfl, by simp [run, h]⟩

/-- C5 witness: the spec's own example of malformed input. -/
theorem claim_C5_witness :
    (PyError.parseError = PyError.parseError) ∧
      run "not json" = ⟨[], some .parseError, "not json"⟩ :=
  claim_C5_invalid_json "not json" .parseError rfl

/-! ## Claim C7: round trip, character and numeral lemmas -/

theorem char_ne_of_toNat (c d : Char) (h : c.toNat ≠ d.toNat) : c ≠ d :=
  fun he => h (he ▸ rfl)

theorem char_valid_range (c : Char) :
    c.toNat < 55296 ∨ (57344 ≤ c.toNat ∧ c.toNat < 1114112) := by
  rcases c.valid with h | ⟨h1, h2⟩
  · exact Or.inl h
  · exact Or.inr ⟨h1, h2⟩

theorem hexVal_hexDigitChar (m : Nat) (h : m < 16) :
    hexVal (hexDigitChar m) = some m := by
  interval_cases m <;> rfl

theorem hex4Val_hex4 (n : Nat) (h : n < 65536) :
    hex4Val (hexDigitChar (n / 4096 % 16)) (hexDigitChar (n / 256 % 16))
      (hexDigitChar (n / 16 % 16)) (hexDigitChar (n % 16)) = some n := by
  have h1 := hexVal_hexDigitChar (n / 4096 % 16) (Nat.mod_lt _ (by omega))
  have h2 := hexVal_hexDigitChar (n / 256 % 16) (Nat.mod_lt _ (by omega))
  have h3 := hexVal_hexDigitChar (n / 16 % 16) (Nat.mod_lt _ (by omega))
  have h4 := hexVal_hexDigitChar (n % 16) (Nat.mod_lt _ (by omega))
  simp only [hex4Val, h1, h2, h3, h4]
  congr 1
  omega

theorem digitChar_toNat (m : Nat) (h : m < 10) :
    (digitChar m).toNat = 48 + m := by
  interval_cases m <;> rfl

theorem isDigitCh_digitChar (m : Nat) (h : m < 10) :
    isDigitCh (digitChar m) = true := by
  interval_cases m <;> rfl

theorem digitChar_ne_zero (m : Nat) (h1 : 0 < m) (h2 : m < 10) :
    digitChar m ≠ '0' := by
  have ht := digitChar_toNat m h2
  have h0 : ('0').toNat = 48 := rfl
  exact char_ne_of_toNat _ _ (by omega)

theorem digitsVal_append (l1 : List Char) :
    ∀ acc l2, digitsVal acc (l1 ++ l2) = digitsVal (digitsVal acc l1) l2 := by
  induction l1 with
  | nil => intro acc l2; rfl
  | cons c l ih =>
    intro acc l2
    show digitsVal (acc * 10 + (c.toNat - 48)) (l ++ l2) =
      digitsVal (digitsVal (acc * 10 + (c.toNat - 48)) l) l2
    exact ih _ l2

theorem natCharsAux_all_digits (fuel : Nat) :
    ∀ n, ∀ c ∈ natCharsAux fuel n, isDigitCh c = true := by
  induction fuel with
  | zero => intro n c hc; simp [natCharsAux] at hc
  | succ fuel ih =>
    intro n c hc
    simp only [natCharsAux] at hc
    by_cases hn : n < 10
    · rw [if_pos hn] at hc
      simp at hc
      subst hc
      exact isDigitCh_digitChar n hn
    · rw [if_neg hn] at hc
      rcases List.mem_append.mp hc with hm | hm
      · exact ih _ c hm
      · simp at hm
        subst hm
        exact isDigitCh_digitChar _ (Nat.mod_lt _ (by omega))

theorem natCharsAux_ne_nil (fuel n : Nat) (hf : 0 < fuel) :
    natCharsAux fuel n ≠ [] := by
  obtain ⟨f, rfl⟩ : ∃ f, fuel = f + 1 := ⟨fuel - 1, by omega⟩
  simp only [natCharsAux]
  by_cases hn : n < 10
  · rw [if_pos hn]
    simp
  · rw [if_neg hn]
    simp

theorem natCharsAux_val (fuel : Nat) :
    ∀ n acc, n < 10 ^ fuel →
      digitsVal acc (natCharsAux fuel n) =
        acc * 10 ^ (natCharsAux fuel n).length + n := by
  induction fuel with
  | zero =>
    intro n acc h
    simp only [pow_zero, Nat.lt_one_iff] at h
    subst h
    show acc = acc * 10 ^ (0:Nat) + 0
    norm_num
  | succ fuel ih =>
    intro n acc h
    by_cases hn : n < 10
    · rw [natCharsAux, if_pos hn]
      show acc * 10 + ((digitChar n).toNat - 48) = acc * 10 ^ (1:Nat) + n
      rw [digitChar_toNat n hn]
      omega
    · have h10 : (0:Nat) < 10 := by norm_num
      have hdiv : n / 10 < 10 ^ fuel := by
        rw [Nat.div_lt_iff_lt_mul h10]
        rw [pow_succ] at h
        exact h
      rw [natCharsAux, if_neg hn, digitsVal_append, ih (n / 10) acc hdiv,
        List.length_append]
      have hd1 : ∀ X, digitsVal X [digitChar (n % 10)] = X * 10 + n % 10 := by
        intro X
        show X * 10 + ((digitChar (n % 10)).toNat - 48) = X * 10 + n % 10
        rw [digitChar_toNat (n % 10) (Nat.mod_lt n h10)]
        omega
      rw [hd1]
      have hL : (10:Nat) ^ ((natCharsAux fuel (n / 10)).length +
          ([digitChar (n % 10)] : List Char).length) =
          10 ^ (natCharsAux fuel (n / 10)).length * 10 := by
        rw [List.length_singleton, pow_succ]
      rw [hL]
      generalize (10:Nat) ^ (natCharsAux fuel (n / 10)).length = P
      have expand : (acc * P + n / 10) * 10 + n % 10 =
          acc * (P * 10) + (n / 10 * 10 + n % 10) := by ring
      rw [expand, show n / 10 * 10 + n % 10 = n from by omega]

theorem natCharsAux_head_ne_zero (fuel : Nat) :
    ∀ n, 0 < n → n < 10 ^ fuel →
      ∀ c t, natCharsAux fuel n = c :: t → c ≠ '0' := by
  induction fuel with
  | zero =>
    intro n h0 h c t hct
    simp [natCharsAux] at hct
  | succ fuel ih =>
    intro n h0 h c t hct
    by_cases hn : n < 10
    · rw [natCharsAux, if_pos hn] at hct
      cases hct
      exact digitChar_ne_zero n h0 hn
    · rw [natCharsAux, if_neg hn] at hct
      have hfpos : 0 < fuel := by
        rcases Nat.eq_zero_or_pos fuel with rfl | hf
        · simp at h
          omega
        · exact hf
      rcases he : natCharsAux fuel (n / 10) with _ | ⟨c', t'⟩
      · exact absurd he (natCharsAux_ne_nil fuel (n / 10) hfpos)
      · rw [he] at hct
        simp only [List.cons_append, List.cons.injEq] at hct
        obtain ⟨rfl, _⟩ := hct
        have hdiv : n / 10 < 10 ^ fuel := by
          rw [Nat.div_lt_iff_lt_mul (by norm_num)]
          rw [pow_succ] at h
          exact h
        exact ih (n / 10) (by omega) hdiv _ _ he

theorem n_lt_ten_pow (n : Nat) : n < 10 ^ (n + 1) := by
  calc n < 10 ^ n := Nat.lt_pow_self (by omega) n
  _ ≤ 10 ^ (n + 1) := Nat.pow_le_pow_right (by omega) (Nat.le_succ n)

theorem natChars_cons (n : Nat) :
    ∃ c t, natChars n = c :: t ∧ isDigitCh c = true ∧ (0 < n → c ≠ '0') := by
  rcases he : natChars n with _ | ⟨c, t⟩
  · exact absurd he (natCharsAux_ne_nil (n + 1) n (by omega))
  · have hmem : c ∈ natChars n := by rw [he]; simp
    refine ⟨c, t, rfl, natCharsAux_all_digits (n + 1) n c hmem, ?_⟩
    intro h0
    exact natCharsAux_head_ne_zero (n + 1) n h0 (n_lt_ten_pow n) c t he

theorem natChars_val (n : Nat) :
    digitsVal 0 (natChars n) = n := by
  have := natCharsAux_val (n + 1) n 0 (n_lt_ten_pow n)
  simpa [natChars] using this

theorem takeDigits_append (ds rest : List Char)
    (hd : ∀ c ∈ ds, isDigitCh c = true) (hr : headNotDigit rest = true) :
    takeDigits (ds ++ rest) = (ds, rest) := by
  induction ds with
  | nil =>
    simp only [List.nil_append]
    match rest, hr with
    | [], _ => rfl
    | c :: r, hr =>
      simp only [headNotDigit, Bool.not_eq_true'] at hr
      simp [takeDigits, hr]
  | cons c ds ih =>
    have hih := ih (fun x hx => hd x (by simp [hx]))
    show (if isDigitCh c then
        (c :: (takeDigits (ds ++ rest)).1, (takeDigits (ds ++ rest)).2)
      else ([], c :: (ds ++ rest))) = (c :: ds, rest)
    rw [if_pos (hd c (by simp)), hih]

theorem parseDigits_natChars (n : Nat) (rest : List Char)
    (hr : headNotDigit rest = true) :
    parseDigits (natChars n ++ rest) = .ok (n, rest) := by
  rcases Nat.eq_zero_or_pos n with rfl | hpos
  · show parseDigits ('0' :: rest) = .ok (0, rest)
    simp [parseDigits]
  · obtain ⟨c, t, hct, hdig, hne⟩ := natChars_cons n
    have hv : digitsVal 0 (natChars n) = n := natChars_val n
    rw [hct] at hv
    have hv2 : digitsVal (0 * 10 + (c.toNat - 48)) t = n := hv
    rw [show 0 * 10 + (c.toNat - 48) = c.toNat - 48 from by omega] at hv2
    clear hv
    have htdig : ∀ x ∈ t, isDigitCh x = true := by
      intro x hx
      exact natCharsAux_all_digits (n + 1) n x (by rw [show natCharsAux (n + 1) n = natChars n from rfl, hct]; simp [hx])
    rw [hct]
    simp only [List.cons_append, parseDigits]
    rw [if_neg (hne hpos), if_pos hdig, takeDigits_append t rest htdig hr, hv2]

theorem isDigitCh_ne_minus (c : Char) (h : isDigitCh c = true) : c ≠ '-' := by
  simp only [isDigitCh, Bool.decide_and, Bool.and_eq_true, decide_eq_true_eq] at h
  have hm : ('-').toNat = 45 := rfl
  exact char_ne_of_toNat c '-' (by omega)

theorem parseNumAt_intChars (k : Int) (rest : List Char)
    (hr : headNotDigit rest = true) :
    parseNumAt (intChars k ++ rest) = .ok (.num k, rest) := by
  match k with
  | .ofNat n =>
    obtain ⟨c, t, hct, hdig, _⟩ := natChars_cons n
    rw [show intChars (.ofNat n) = natChars n from rfl, hct]
    simp only [List.cons_append, parseNumAt]
    rw [if_neg (isDigitCh_ne_minus c hdig)]
    rw [show (c :: (t ++ rest)) = natChars n ++ rest from by rw [hct]; simp]
    rw [parseDigits_natChars n rest hr]
    rfl
  | .negSucc m =>
    rw [show intChars (.negSucc m) = '-' :: natChars (m + 1) from rfl]
    simp only [List.cons_append, parseNumAt]
    rw [if_pos trivial, parseDigits_natChars (m + 1) rest hr]
    refine congrArg (fun z => Except.ok (Json.num z, rest)) ?_
    rw [Int.negSucc_eq]
    push_cast
    ring

/-! ## Claim C7: string escape round trip -/

theorem uEscape_hex4 (n : Nat) (h : n < 65536)
    (hv : n < 55296 ∨ 57344 ≤ n) (r2 : List Char) :
    uEscape (hex4 n ++ r2) = .chr (Char.ofNat n) r2 := by
  show uEscape (hexDigitChar (n / 4096 % 16) :: hexDigitChar (n / 256 % 16) ::
    hexDigitChar (n / 16 % 16) :: hexDigitChar (n % 16) :: r2) =
    .chr (Char.ofNat n) r2
  simp only [uEscape]
  rw [hex4Val_hex4 n h]
  show (if n < 55296 ∨ 57344 ≤ n then StrTok.chr (Char.ofNat n) r2
    else if n < 56320 then surrPair n r2 else .bad) = .chr (Char.ofNat n) r2
  rw [if_pos hv]

theorem surrPair_hex4 (n m : Nat) (hm : m < 65536)
    (hok : 56320 ≤ m ∧ m < 57344) (r : List Char) :
    surrPair n ('\\' :: 'u' :: hex4 m ++ r) =
      .chr (Char.ofNat (65536 + (n - 55296) * 1024 + (m - 56320))) r := by
  show surrPair n ('\\' :: 'u' :: hexDigitChar (m / 4096 % 16) ::
    hexDigitChar (m / 256 % 16) :: hexDigitChar (m / 16 % 16) ::
    hexDigitChar (m % 16) :: r) =
    .chr (Char.ofNat (65536 + (n - 55296) * 1024 + (m - 56320))) r
  simp only [surrPair]
  rw [if_pos (by simp), hex4Val_hex4 m hm]
  show (if 56320 ≤ m ∧ m < 57344 then
      StrTok.chr (Char.ofNat (65536 + (n - 55296) * 1024 + (m - 56320))) r
    else .bad) =
    .chr (Char.ofNat (65536 + (n - 55296) * 1024 + (m - 56320))) r
  rw [if_pos hok]

theorem uEscape_hex4_high (n : Nat) (hhi : 55296 ≤ n ∧ n < 56320)
    (r2 : List Char) : uEscape (hex4 n ++ r2) = surrPair n r2 := by
  show uEscape (hexDigitChar (n / 4096 % 16) :: hexDigitChar (n / 256 % 16) ::
    hexDigitChar (n / 16 % 16) :: hexDigitChar (n % 16) :: r2) = surrPair n r2
  simp only [uEscape]
  rw [hex4Val_hex4 n (by omega)]
  show (if n < 55296 ∨ 57344 ≤ n then StrTok.chr (Char.ofNat n) r2
    else if n < 56320 then surrPair n r2 else .bad) = surrPair n r2
  rw [if_neg (by omega), if_pos (by omega)]

theorem uEscape_surr (x : Nat) (h1 : 65536 ≤ x) (h2 : x < 1114112)
    (r : List Char) :
    uEscape (hex4 (55296 + (x - 65536) / 1024) ++
      ('\\' :: 'u' :: hex4 (56320 + (x - 65536) % 1024) ++ r)) =
      .chr (Char.ofNat x) r := by
  rw [uEscape_hex4_high (55296 + (x - 65536) / 1024) ⟨by omega, by omega⟩]
  rw [surrPair_hex4 _ _ (by omega) ⟨by omega, by omega⟩ r]
  refine congrArg (fun z => StrTok.chr (Char.ofNat z) r) ?_
  omega

theorem strTok_u (r1 : List Char) : strTok ('\\' :: 'u' :: r1) = uEscape r1 :=
  rfl

theorem strTok_raw (c : Char) (r : List Char) (h1 : ¬ c = '"')
    (h2 : ¬ c = '\\') (h3 : ¬ c.toNat < 32) :
    strTok (c :: r) = .chr c r := by
  rw [strTok.eq_def]
  simp [h1, h2, h3]

theorem strTok_escapeChar (c : Char) (rest : List Char) :
    strTok (escapeChar c ++ rest) = .chr c rest := by
  by_cases h1 : c = '"'
  · subst h1; rfl
  by_cases h2 : c = '\\'
  · subst h2; rfl
  by_cases h3 : c = '\x08'
  · subst h3; rfl
  by_cases h4 : c = '\x0c'
  · subst h4; rfl
  by_cases h5 : c = '\n'
  · subst h5; rfl
  by_cases h6 : c = '\r'
  · subst h6; rfl
  by_cases h7 : c = '\t'
  · subst h7; rfl
  rw [escapeChar, if_neg h1, if_neg h2, if_neg h3, if_neg h4, if_neg h5,
    if_neg h6, if_neg h7]
  by_cases h8 : c.toNat < 32 ∨ 126 < c.toNat
  · rw [if_pos h8]
    by_cases h9 : c.toNat < 65536
    · rw [if_pos h9]
      have hv : c.toNat < 55296 ∨ 57344 ≤ c.toNat := by
        rcases char_valid_range c with hc | ⟨hc, _⟩
        · exact Or.inl hc
        · exact Or.inr hc
      show uEscape (hex4 c.toNat ++ rest) = .chr c rest
      rw [uEscape_hex4 c.toNat h9 hv rest, Char.ofNat_toNat]
    · rw [if_neg h9]
      have hb : 65536 ≤ c.toNat ∧ c.toNat < 1114112 := by
        rcases char_valid_range c with hc | ⟨_, hc⟩
        · omega
        · omega
      rw [List.append_assoc, List.cons_append, List.cons_append, strTok_u]
      rw [uEscape_hex4_high (55296 + (c.toNat - 65536) / 1024)
        ⟨by omega, by omega⟩]
      rw [surrPair_hex4 _ _ (by omega) ⟨by omega, by omega⟩ rest]
      rw [show 65536 + (55296 + (c.toNat - 65536) / 1024 - 55296) * 1024 +
        (56320 + (c.toNat - 65536) % 1024 - 56320) = c.toNat from by omega]
      rw [Char.ofNat_toNat]
  · rw [if_neg h8]
    show strTok (c :: rest) = .chr c rest
    exact strTok_raw c rest h1 h2 (by omega)

theorem escapeChar_length_pos (c : Char) : 0 < (escapeChar c).length := by
  rw [escapeChar]
  split_ifs <;> simp [hex4]

theorem escChars_length (s : List Char) : s.length ≤ (escChars s).length := by
  induction s with
  | nil => simp [escChars]
  | cons c l ih =>
    have := escapeChar_length_pos c
    simp only [escChars, List.length_append, List.length_cons]
    omega

theorem parseStrAux_escChars (l : List Char) :
    ∀ fuel rest, l.length + 1 ≤ fuel →
      parseStrAux fuel (escChars l ++ '"' :: rest) = .ok (l, rest) := by
  induction l with
  | nil =>
    intro fuel rest hf
    obtain ⟨f, rfl⟩ : ∃ f, fuel = f + 1 := ⟨fuel - 1, by omega⟩
    rfl
  | cons c l ih =>
    intro fuel rest hf
    obtain ⟨f, rfl⟩ : ∃ f, fuel = f + 1 := ⟨fuel - 1, by omega⟩
    show parseStrAux (f + 1) ((escapeChar c ++ escChars l) ++ '"' :: rest) =
      .ok (c :: l, rest)
    rw [List.append_assoc]
    simp only [parseStrAux]
    rw [strTok_escapeChar c (escChars l ++ '"' :: rest)]
    show consStr c (parseStrAux f (escChars l ++ '"' :: rest)) =
      .ok (c :: l, rest)
    rw [ih f rest (by simp at hf; omega)]
    rfl

theorem parseStr_escChars (s : List Char) (rest : List Char) :
    parseStr (escChars s ++ '"' :: rest) = .ok (String.mk s, rest) := by
  have hlen := escChars_length s
  simp only [parseStr]
  rw [parseStrAux_escChars s _ rest
    (by simp only [List.length_append, List.length_cons]; omega)]

/-! ## Claim C7: parser step lemmas -/

theorem skipWs_cons_not (c : Char) (l : List Char) (h : isWs c = false) :
    skipWs (c :: l) = c :: l := by
  simp [skipWs, h]

theorem isWs_false (c : Char) (h32 : c.toNat ≠ 32) (h9 : c.toNat ≠ 9)
    (h10 : c.toNat ≠ 10) (h13 : c.toNat ≠ 13) : isWs c = false := by
  simp only [isWs, decide_eq_false_iff_not]
  push_neg
  have e1 : (' ').toNat = 32 := rfl
  have e2 : ('\t').toNat = 9 := rfl
  have e3 : ('\n').toNat = 10 := rfl
  have e4 : ('\r').toNat = 13 := rfl
  exact ⟨char_ne_of_toNat _ _ (by omega), char_ne_of_toNat _ _ (by omega),
    char_ne_of_toNat _ _ (by omega), char_ne_of_toNat _ _ (by omega)⟩

theorem digit_facts (c : Char) (h : isDigitCh c = true) :
    isWs c = false ∧ ¬c = '\x7b' ∧ ¬c = '[' ∧ ¬c = '"' ∧ ¬c = 't' ∧
      ¬c = 'f' ∧ ¬c = 'n' := by
  simp only [isDigitCh, decide_eq_true_eq] at h
  have f1 : ('\x7b').toNat = 123 := rfl
  have f2 : ('[').toNat = 91 := rfl
  have f3 : ('"').toNat = 34 := rfl
  have f4 : ('t').toNat = 116 := rfl
  have f5 : ('f').toNat = 102 := rfl
  have f6 : ('n').toNat = 110 := rfl
  exact ⟨isWs_false c (by omega) (by omega) (by omega) (by omega),
    char_ne_of_toNat _ _ (by omega), char_ne_of_toNat _ _ (by omega),
    char_ne_of_toNat _ _ (by omega), char_ne_of_toNat _ _ (by omega),
    char_ne_of_toNat _ _ (by omega), char_ne_of_toNat _ _ (by omega)⟩

theorem parseVal_num_head (fuel : Nat) (c : Char) (l : List Char)
    (hdig : c = '-' ∨ isDigitCh c = true) :
    parseVal (fuel + 1) (c :: l) = parseNumAt (c :: l) := by
  have hfacts : isWs c = false ∧ ¬c = '\x7b' ∧ ¬c = '[' ∧ ¬c = '"' ∧
      ¬c = 't' ∧ ¬c = 'f' ∧ ¬c = 'n' := by
    rcases hdig with rfl | hd
    · exact ⟨by decide, by decide, by decide, by decide, by decide, by decide,
        by decide⟩
    · exact digit_facts c hd
  obtain ⟨hws, hb, hk, hq, ht', hf', hn'⟩ := hfacts
  simp only [parseVal]
  rw [skipWs_cons_not c l hws]
  split
  · rename_i hx
    cases hx
  · rename_i c2 r2 hx
    cases hx
    rw [if_neg hb, if_neg hk, if_neg hq, if_neg ht', if_neg hf', if_neg hn',
      if_pos hdig]

theorem parseVal_quote (fuel : Nat) (l : List Char) (s : String) (r : List Char)
    (h : parseStr l = .ok (s, r)) :
    parseVal (fuel + 1) ('"' :: l) = .ok (.str s, r) := by
  simp only [parseVal]
  rw [skipWs_cons_not '"' l (by decide)]
  split
  · rename_i hx
    cases hx
  · rename_i c2 r2 hx
    cases hx
    rw [if_neg (by decide), if_neg (by decide), if_pos rfl, h]

theorem parseVal_brace_close (fuel : Nat) (l : List Char) (r2 : List Char)
    (h : skipWs l = '\x7d' :: r2) :
    parseVal (fuel + 1) ('\x7b' :: l) = .ok (.obj [], r2) := by
  simp only [parseVal]
  rw [skipWs_cons_not '\x7b' l (by decide)]
  split
  · rename_i hx
    cases hx
  · rename_i c2 r0 hx
    cases hx
    rw [if_pos rfl, h]
    split
    · rename_i hx2
      cases hx2
    · rename_i c3 r3 hx2
      cases hx2
      rw [if_pos rfl]

theorem parseVal_brace_cons (fuel : Nat) (l : List Char) (c2 : Char)
    (r2 : List Char) (h : skipWs l = c2 :: r2) (hne : ¬c2 = '\x7d') :
    parseVal (fuel + 1) ('\x7b' :: l) = parseMembers fuel (c2 :: r2) [] := by
  simp only [parseVal]
  rw [skipWs_cons_not '\x7b' l (by decide)]
  split
  · rename_i hx
    cases hx
  · rename_i c0 r0 hx
    cases hx
    rw [if_pos rfl, h]
    split
    · rename_i hx2
      cases hx2
    · rename_i c3 r3 hx2
      cases hx2
      rw [if_neg hne]

theorem parseVal_brk_close (fuel : Nat) (l : List Char) (r2 : List Char)
    (h : skipWs l = ']' :: r2) :
    parseVal (fuel + 1) ('[' :: l) = .ok (.arr [], r2) := by
  simp only [parseVal]
  rw [skipWs_cons_not '[' l (by decide)]
  split
  · rename_i hx
    cases hx
  · rename_i c2 r0 hx
    cases hx
    rw [if_neg (by decide), if_pos rfl, h]
    split
    · rename_i hx2
      cases hx2
    · rename_i c3 r3 hx2
      cases hx2
      rw [if_pos rfl]

theorem parseVal_brk_cons (fuel : Nat) (l : List Char) (c2 : Char)
    (r2 : List Char) (h : skipWs l = c2 :: r2) (hne : ¬c2 = ']') :
    parseVal (fuel + 1) ('[' :: l) = parseElems fuel (c2 :: r2) [] := by
  simp only [parseVal]
  rw [skipWs_cons_not '[' l (by decide)]
  split
  · rename_i hx
    cases hx
  · rename_i c0 r0 hx
    cases hx
    rw [if_neg (by decide), if_pos rfl, h]
    split
    · rename_i hx2
      cases hx2
    · rename_i c3 r3 hx2
      cases hx2
      rw [if_neg hne]

theorem parseVal_null (fuel : Nat) (rest : List Char) :
    parseVal (fuel + 1) ('n' :: 'u' :: 'l' :: 'l' :: rest) =
      .ok (.null, rest) := rfl

theorem parseVal_lit_true (fuel : Nat) (rest : List Char) :
    parseVal (fuel + 1) ('t' :: 'r' :: 'u' :: 'e' :: rest) =
      .ok (.bool true, rest) := rfl

theorem parseVal_lit_false (fuel : Nat) (rest : List Char) :
    parseVal (fuel + 1) ('f' :: 'a' :: 'l' :: 's' :: 'e' :: rest) =
      .ok (.bool false, rest) := rfl

theorem parseVal_ws (fuel : Nat) (c : Char) (l : List Char)
    (h : isWs c = true) :
    parseVal (fuel + 1) (c :: l) = parseVal (fuel + 1) l := by
  simp only [parseVal]
  rw [show skipWs (c :: l) = skipWs l from by simp [skipWs, h]]

theorem parseElems_ws (fuel : Nat) (c : Char) (l : List Char)
    (acc : List Json) (h : isWs c = true) :
    parseElems (fuel + 1) (c :: l) acc = parseElems (fuel + 1) l acc := by
  cases fuel with
  | zero => rfl
  | succ g =>
    simp only [parseElems]
    rw [parseVal_ws g c l h]

theorem parseElems_step (fuel : Nat) (cs : List Char) (acc : List Json)
    (v : Json) (r : List Char) (hv : parseVal fuel cs = .ok (v, r))
    (c2 : Char) (r2 : List Char) (hsk : skipWs r = c2 :: r2) :
    parseElems (fuel + 1) cs acc =
      (if c2 = ',' then parseElems fuel r2 (acc ++ [v])
       else if c2 = ']' then .ok (.arr (acc ++ [v]), r2)
       else .error .parseError) := by
  simp only [parseElems]
  rw [hv]
  split
  · rename_i x e heq
    cases heq
  · rename_i x v0 r0 heq
    cases heq
    rw [hsk]

theorem parseMembers_step (fuel : Nat) (r : List Char)
    (acc : List (String × Json)) (k : String) (r2 : List Char)
    (hk : parseStr r = .ok (k, r2)) (r3 : List Char)
    (hc : skipWs r2 = ':' :: r3) (v : Json) (r4 : List Char)
    (hv : parseVal fuel r3 = .ok (v, r4)) (c3 : Char) (r5 : List Char)
    (hsk : skipWs r4 = c3 :: r5) :
    parseMembers (fuel + 1) ('"' :: r) acc =
      (if c3 = ',' then parseMembers fuel (skipWs r5) (setKey acc k v)
       else if c3 = '\x7d' then .ok (.obj (setKey acc k v), r5)
       else .error .parseError) := by
  simp only [parseMembers]
  rw [if_pos (by simp), hk]
  split
  · rename_i x e heq
    cases heq
  · rename_i x k0 r20 heq
    cases heq
    rw [hc]
    split
    · rename_i heq2
      cases heq2
    · rename_i c0 r30 heq2
      cases heq2
      rw [if_pos (by simp), hv]
      split
      · rename_i x2 e2 heq3
        cases heq3
      · rename_i x2 v0 r40 heq3
        cases heq3
        rw [hsk]

/-! ## Claim C7: key uniqueness and head-shape lemmas -/

theorem strMem_append (k : String) (xs ys : List String) :
    strMem k (xs ++ ys) = (strMem k xs || strMem k ys) := by
  induction xs with
  | nil => simp [strMem]
  | cons x xs ih => simp [strMem, ih, Bool.or_assoc]

theorem strNodup_contains (xs : List String) (k : String) (ys : List String)
    (h : strNodup (xs ++ k :: ys) = true) : strMem k xs = false := by
  induction xs with
  | nil => rfl
  | cons x xs ih =>
    simp only [List.cons_append, List.append_eq, strNodup, Bool.and_eq_true,
      Bool.not_eq_true'] at h
    obtain ⟨h1, h2⟩ := h
    rw [strMem_append] at h1
    simp only [strMem, Bool.or_eq_false_iff, decide_eq_false_iff_not,
      not_or] at h1 ⊢
    refine ⟨fun hk => ?_, ih h2⟩
    subst hk
    simp at h1
  -- the membership of the duplicate key refutes the first hypothesis

theorem keysOf_append (l1 l2 : List (String × Json)) :
    keysOf (l1 ++ l2) = keysOf l1 ++ keysOf l2 := by
  simp [keysOf]

theorem setKey_append_fresh (acc : List (String × Json)) (k : String)
    (v : Json) (h : strMem k (keysOf acc) = false) :
    setKey acc k v = acc ++ [(k, v)] := by
  induction acc with
  | nil => rfl
  | cons kv rest ih =>
    obtain ⟨k', v'⟩ := kv
    simp only [keysOf, List.map_cons, strMem, Bool.or_eq_false_iff,
      decide_eq_false_iff_not, not_or] at h
    rw [setKey, if_neg (fun he => h.1 he.symm), ih (by simpa [keysOf] using h.2)]
    rfl

theorem jsizeV_pos (d : Json) : 1 ≤ jsizeV d := by
  cases d with
  | null => exact Nat.le_refl 1
  | bool b => exact Nat.le_refl 1
  | num n => exact Nat.le_refl 1
  | str s => exact Nat.le_refl 1
  | arr xs => show 1 ≤ 1 + jsizeL xs; omega
  | obj kvs => show 1 ≤ 1 + jsizeM kvs; omega

theorem intChars_cons (k : Int) :
    ∃ c t, intChars k = c :: t ∧ (c = '-' ∨ isDigitCh c = true) := by
  match k with
  | .ofNat n =>
    obtain ⟨c, t, hct, hdig, _⟩ := natChars_cons n
    exact ⟨c, t, hct, Or.inr hdig⟩
  | .negSucc m => exact ⟨'-', natChars (m + 1), rfl, Or.inl rfl⟩

theorem dumpVal_cons (d : Json) : ∃ c t, dumpVal d = c :: t ∧
    isWs c = false ∧ ¬c = ']' ∧ ¬c = '\x7d' := by
  cases d with
  | null => exact ⟨'n', _, rfl, by decide, by decide, by decide⟩
  | bool b =>
    cases b
    · exact ⟨'f', _, rfl, by decide, by decide, by decide⟩
    · exact ⟨'t', _, rfl, by decide, by decide, by decide⟩
  | num k =>
    obtain ⟨c, t, hct, hdig⟩ := intChars_cons k
    refine ⟨c, t, hct, ?_, ?_, ?_⟩
    · rcases hdig with rfl | hd
      · decide
      · exact (digit_facts c hd).1
    · rcases hdig with rfl | hd
      · decide
      · simp only [isDigitCh, decide_eq_true_eq] at hd
        have f7 : (']').toNat = 93 := rfl
        exact char_ne_of_toNat _ _ (by omega)
    · rcases hdig with rfl | hd
      · decide
      · simp only [isDigitCh, decide_eq_true_eq] at hd
        have f8 : ('\x7d').toNat = 125 := rfl
        exact char_ne_of_toNat _ _ (by omega)
  | str s => exact ⟨'"', _, rfl, by decide, by decide, by decide⟩
  | arr xs => exact ⟨'[', _, rfl, by decide, by decide, by decide⟩
  | obj kvs => exact ⟨'\x7b', _, rfl, by decide, by decide, by decide⟩

theorem dumpArr_cons (x : Json) (xs : List Json) (c : Char) (t : List Char)
    (hct : dumpVal x = c :: t) : ∃ t2, dumpArr (x :: xs) = c :: t2 := by
  cases xs with
  | nil => exact ⟨t, by rw [show dumpArr [x] = dumpVal x from rfl, hct]⟩
  | cons y ys =>
    refine ⟨t ++ ',' :: ' ' :: dumpArr (y :: ys), ?_⟩
    rw [show dumpArr (x :: y :: ys) =
      dumpVal x ++ ',' :: ' ' :: dumpArr (y :: ys) from rfl, hct,
      List.cons_append]

theorem dumpObj_cons (m : String × Json) (ms : List (String × Json)) :
    ∃ t2, dumpObj (m :: ms) = '"' :: t2 := by
  obtain ⟨k, v⟩ := m
  cases ms with
  | nil => exact ⟨escChars k.data ++ '"' :: ':' :: ' ' :: dumpVal v, rfl⟩
  | cons m2 ms' =>
    refine ⟨(escChars k.data ++ '"' :: ':' :: ' ' :: dumpVal v) ++
      ',' :: ' ' :: dumpObj (m2 :: ms'), ?_⟩
    rfl

/-- The heart of the round trip: a serialized value parses back to the
value it came from, for a value with unique keys in every object, with
fuel at least its size, before a remainder that does not start with a
digit; serialized arrays and objects re-enter through the element and
member loops with any accumulator. -/
theorem parse_dump (N : Nat) :
    (∀ d, jsizeV d ≤ N → wfV d = true →
      ∀ fuel rest, jsizeV d ≤ fuel → headNotDigit rest = true →
        parseVal fuel (dumpVal d ++ rest) = .ok (d, rest)) ∧
    (∀ xs, jsizeL xs ≤ N → wfL xs = true → xs ≠ [] →
      ∀ fuel rest acc, jsizeL xs ≤ fuel →
        parseElems fuel (dumpArr xs ++ ']' :: rest) acc =
          .ok (.arr (acc ++ xs), rest)) ∧
    (∀ kvs, jsizeM kvs ≤ N → wfM kvs = true → kvs ≠ [] →
      ∀ fuel rest acc, jsizeM kvs ≤ fuel →
        strNodup (keysOf acc ++ keysOf kvs) = true →
        parseMembers fuel (dumpObj kvs ++ '\x7d' :: rest) acc =
          .ok (.obj (acc ++ kvs), rest)) := by
  induction N using Nat.strong_induction_on with
  | _ N IH =>
  refine ⟨?_, ?_, ?_⟩
  · intro d hN hwf fuel rest hfuel hrest
    obtain ⟨f, rfl⟩ : ∃ f, fuel = f + 1 :=
      ⟨fuel - 1, by have := jsizeV_pos d; omega⟩
    cases d with
    | null => exact parseVal_null f rest
    | bool b =>
      cases b
      · exact parseVal_lit_false f rest
      · exact parseVal_lit_true f rest
    | num k =>
      obtain ⟨c, t, hct, hdig⟩ := intChars_cons k
      rw [show dumpVal (.num k) = intChars k from rfl, hct, List.cons_append,
        parseVal_num_head f c (t ++ rest) hdig,
        show c :: (t ++ rest) = intChars k ++ rest from by
          rw [hct, List.cons_append]]
      exact parseNumAt_intChars k rest hrest
    | str s =>
      rw [show dumpVal (.str s) ++ rest =
          '"' :: (escChars s.data ++ '"' :: rest) from by
        show ('"' :: (escChars s.data ++ ['"'])) ++ rest = _
        simp]
      exact parseVal_quote f _ s rest (parseStr_escChars s.data rest)
    | arr xs =>
      rw [show dumpVal (.arr xs) ++ rest =
          '[' :: (dumpArr xs ++ ']' :: rest) from by
        show ('[' :: (dumpArr xs ++ [']'])) ++ rest = _
        simp]
      cases xs with
      | nil =>
        exact parseVal_brk_close f _ rest (skipWs_cons_not ']' rest (by decide))
      | cons x xs' =>
        obtain ⟨c, t, hct, hws, hne1, hne2⟩ := dumpVal_cons x
        obtain ⟨t2, ht2⟩ := dumpArr_cons x xs' c t hct
        rw [ht2, List.cons_append,
          parseVal_brk_cons f _ c (t2 ++ ']' :: rest)
            (skipWs_cons_not c _ hws) hne1,
          ← List.cons_append, ← ht2]
        have hsv : jsizeV (.arr (x :: xs')) = 1 + jsizeL (x :: xs') := rfl
        have hsl : jsizeL (x :: xs') < N := by omega
        exact (IH (jsizeL (x :: xs')) hsl).2.1 (x :: xs') (le_refl _) hwf
          (List.cons_ne_nil x xs') f rest [] (by omega)
    | obj kvs =>
      have h2 : (strNodup (keysOf kvs) && wfM kvs) = true := hwf
      rw [Bool.and_eq_true] at h2
      rw [show dumpVal (.obj kvs) ++ rest =
          '\x7b' :: (dumpObj kvs ++ '\x7d' :: rest) from by
        show ('\x7b' :: (dumpObj kvs ++ ['\x7d'])) ++ rest = _
        simp]
      cases kvs with
      | nil =>
        exact parseVal_brace_close f _ rest
          (skipWs_cons_not '\x7d' rest (by decide))
      | cons m ms =>
        obtain ⟨t2, ht2⟩ := dumpObj_cons m ms
        rw [ht2, List.cons_append,
          parseVal_brace_cons f _ '"' (t2 ++ '\x7d' :: rest)
            (skipWs_cons_not '"' _ (by decide)) (by decide),
          ← List.cons_append, ← ht2]
        have hsv : jsizeV (.obj (m :: ms)) = 1 + jsizeM (m :: ms) := rfl
        have hsm : jsizeM (m :: ms) < N := by omega
        exact (IH (jsizeM (m :: ms)) hsm).2.2 (m :: ms) (le_refl _) h2.2
          (List.cons_ne_nil m ms) f rest [] (by omega) h2.1
  · intro xs hN hwf hne fuel rest acc hfuel
    cases xs with
    | nil => exact absurd rfl hne
    | cons x xs' =>
    have hsz : jsizeL (x :: xs') = 1 + jsizeV x + jsizeL xs' := rfl
    have hvpos := jsizeV_pos x
    obtain ⟨f, rfl⟩ : ∃ f, fuel = f + 1 := ⟨fuel - 1, by omega⟩
    have hwf' : (wfV x && wfL xs') = true := hwf
    rw [Bool.and_eq_true] at hwf'
    cases xs' with
    | nil =>
      have hz : jsizeL ([] : List Json) = 0 := rfl
      have hlt : jsizeV x < N := by omega
      have hv := (IH (jsizeV x) hlt).1 x (le_refl _) hwf'.1 f (']' :: rest)
        (by omega) rfl
      rw [show dumpArr [x] = dumpVal x from rfl,
        parseElems_step f _ acc x (']' :: rest) hv ']' rest
          (skipWs_cons_not ']' rest (by decide)),
        if_neg (by decide), if_pos rfl]
    | cons y ys =>
      have hsz2 : jsizeL (y :: ys) = 1 + jsizeV y + jsizeL ys := rfl
      have hypos := jsizeV_pos y
      have hlt1 : jsizeV x < N := by omega
      have hlt2 : jsizeL (y :: ys) < N := by omega
      have hv := (IH (jsizeV x) hlt1).1 x (le_refl _) hwf'.1 f
        (',' :: ' ' :: (dumpArr (y :: ys) ++ ']' :: rest)) (by omega) rfl
      rw [show dumpArr (x :: y :: ys) =
          dumpVal x ++ ',' :: ' ' :: dumpArr (y :: ys) from rfl,
        List.append_assoc, List.cons_append, List.cons_append,
        parseElems_step f _ acc x _ hv ','
          (' ' :: (dumpArr (y :: ys) ++ ']' :: rest))
          (skipWs_cons_not ',' _ (by decide)),
        if_pos rfl]
      obtain ⟨g, rfl⟩ : ∃ g, f = g + 1 := ⟨f - 1, by omega⟩
      rw [parseElems_ws g ' ' (dumpArr (y :: ys) ++ ']' :: rest) (acc ++ [x])
          (by decide),
        (IH (jsizeL (y :: ys)) hlt2).2.1 (y :: ys) (le_refl _) hwf'.2
          (List.cons_ne_nil y ys) (g + 1) rest (acc ++ [x]) (by omega)]
      simp
  · intro kvs hN hwf hne fuel rest acc hfuel hnd
    cases kvs with
    | nil => exact absurd rfl hne
    | cons m ms =>
    obtain ⟨k, v⟩ := m
    have hsz : jsizeM ((k, v) :: ms) = 1 + jsizeV v + jsizeM ms := rfl
    have hvpos := jsizeV_pos v
    obtain ⟨f, rfl⟩ : ∃ f, fuel = f + 1 := ⟨fuel - 1, by omega⟩
    have hwf' : (wfV v && wfM ms) = true := hwf
    rw [Bool.and_eq_true] at hwf'
    have hfresh : strMem k (keysOf acc) = false :=
      strNodup_contains (keysOf acc) k (keysOf ms) hnd
    cases ms with
    | nil =>
      have hz : jsizeM ([] : List (String × Json)) = 0 := rfl
      have hlt : jsizeV v < N := by omega
      rw [show dumpObj [(k, v)] ++ '\x7d' :: rest =
          '"' :: (escChars k.data ++ '"' :: (':' :: ' ' ::
            (dumpVal v ++ '\x7d' :: rest))) from by
        show ('"' :: (escChars k.data ++ '"' :: ':' :: ' ' :: dumpVal v)) ++
          '\x7d' :: rest = _
        simp]
      obtain ⟨g, rfl⟩ : ∃ g, f = g + 1 := ⟨f - 1, by omega⟩
      have hv := (IH (jsizeV v) hlt).1 v (le_refl _) hwf'.1 (g + 1)
        ('\x7d' :: rest) (by omega) rfl
      have hv' : parseVal (g + 1)
          (' ' :: (dumpVal v ++ '\x7d' :: rest)) = .ok (v, '\x7d' :: rest) := by
        rw [parseVal_ws g ' ' _ (by decide)]
        exact hv
      rw [parseMembers_step (g + 1) _ acc k
          (':' :: ' ' :: (dumpVal v ++ '\x7d' :: rest))
          (parseStr_escChars k.data _)
          (' ' :: (dumpVal v ++ '\x7d' :: rest))
          (skipWs_cons_not ':' _ (by decide)) v ('\x7d' :: rest) hv'
          '\x7d' rest (skipWs_cons_not '\x7d' rest (by decide)),
        if_neg (by decide), if_pos rfl,
        setKey_append_fresh acc k v hfresh]
    | cons m2 ms' =>
      obtain ⟨t2, ht2⟩ := dumpObj_cons m2 ms'
      have hsz2 : jsizeM (m2 :: ms') = 1 + jsizeV m2.2 + jsizeM ms' := rfl
      have hm2pos := jsizeV_pos m2.2
      have hlt : jsizeV v < N := by omega
      have hlt2 : jsizeM (m2 :: ms') < N := by omega
      rw [show dumpObj ((k, v) :: m2 :: ms') ++ '\x7d' :: rest =
          '"' :: (escChars k.data ++ '"' :: (':' :: ' ' :: (dumpVal v ++
            ',' :: ' ' :: (dumpObj (m2 :: ms') ++ '\x7d' :: rest)))) from by
        show (('"' :: (escChars k.data ++ '"' :: ':' :: ' ' :: dumpVal v)) ++
          ',' :: ' ' :: dumpObj (m2 :: ms')) ++ '\x7d' :: rest = _
        simp]
      obtain ⟨g, rfl⟩ : ∃ g, f = g + 1 := ⟨f - 1, by omega⟩
      have hv := (IH (jsizeV v) hlt).1 v (le_refl _) hwf'.1 (g + 1)
        (',' :: ' ' :: (dumpObj (m2 :: ms') ++ '\x7d' :: rest)) (by omega) rfl
      have hv' : parseVal (g + 1) (' ' :: (dumpVal v ++
          ',' :: ' ' :: (dumpObj (m2 :: ms') ++ '\x7d' :: rest))) =
          .ok (v, ',' :: ' ' :: (dumpObj (m2 :: ms') ++ '\x7d' :: rest)) := by
        rw [parseVal_ws g ' ' _ (by decide)]
        exact hv
      rw [parseMembers_step (g + 1) _ acc k
          (':' :: ' ' :: (dumpVal v ++
            ',' :: ' ' :: (dumpObj (m2 :: ms') ++ '\x7d' :: rest)))
          (parseStr_escChars k.data _)
          (' ' :: (dumpVal v ++
            ',' :: ' ' :: (dumpObj (m2 :: ms') ++ '\x7d' :: rest)))
          (skipWs_cons_not ':' _ (by decide)) v
          (',' :: ' ' :: (dumpObj (m2 :: ms') ++ '\x7d' :: rest)) hv'
          ',' (' ' :: (dumpObj (m2 :: ms') ++ '\x7d' :: rest))
          (skipWs_cons_not ',' _ (by decide)),
        if_pos rfl]
      have hskip : skipWs (' ' :: (dumpObj (m2 :: ms') ++ '\x7d' :: rest)) =
          dumpObj (m2 :: ms') ++ '\x7d' :: rest := by
        rw [show skipWs (' ' :: (dumpObj (m2 :: ms') ++ '\x7d' :: rest)) =
            skipWs (dumpObj (m2 :: ms') ++ '\x7d' :: rest) from by
          rw [show skipWs (' ' :: (dumpObj (m2 :: ms') ++ '\x7d' :: rest)) =
              if isWs ' ' then skipWs (dumpObj (m2 :: ms') ++ '\x7d' :: rest)
              else ' ' :: (dumpObj (m2 :: ms') ++ '\x7d' :: rest) from rfl,
            if_pos (by decide)]]
        rw [ht2, List.cons_append, skipWs_cons_not '"' _ (by decide),
          ← List.cons_append, ← ht2]
      rw [hskip, setKey_append_fresh acc k v hfresh]
      have hnd' : strNodup (keysOf (acc ++ [(k, v)]) ++ keysOf (m2 :: ms')) =
          true := by
        rw [keysOf_append, List.append_assoc]
        exact hnd
      rw [(IH (jsizeM (m2 :: ms')) hlt2).2.2 (m2 :: ms') (le_refl _) hwf'.2
        (List.cons_ne_nil m2 ms') (g + 1) rest (acc ++ [(k, v)]) (by omega)
        hnd']
      simp

/-- The size of a value is covered by the length of its serialization,
so `loads` always carries enough fuel to re-parse a dump. -/
theorem dump_size (N : Nat) :
    (∀ d, jsizeV d ≤ N → jsizeV d ≤ (dumpVal d).length) ∧
    (∀ xs, jsizeL xs ≤ N → xs ≠ [] → jsizeL xs ≤ 1 + (dumpArr xs).length) ∧
    (∀ kvs, jsizeM kvs ≤ N → kvs ≠ [] →
      jsizeM kvs ≤ 1 + (dumpObj kvs).length) := by
  induction N using Nat.strong_induction_on with
  | _ N IH =>
  refine ⟨?_, ?_, ?_⟩
  · intro d hN
    cases d with
    | null => decide
    | bool b => cases b <;> decide
    | num k =>
      obtain ⟨c, t, hct, _⟩ := intChars_cons k
      have hL : (dumpVal (.num k)).length = t.length + 1 := by
        rw [show dumpVal (.num k) = intChars k from rfl, hct]
        rfl
      have hj : jsizeV (.num k) = 1 := rfl
      omega
    | str s =>
      have hL : (dumpVal (.str s)).length =
          (escChars s.data ++ ['"']).length + 1 := rfl
      have hj : jsizeV (.str s) = 1 := rfl
      omega
    | arr xs =>
      have hj : jsizeV (.arr xs) = 1 + jsizeL xs := rfl
      have hL : (dumpVal (.arr xs)).length = (dumpArr xs ++ [']']).length + 1 :=
        rfl
      have hL2 : (dumpArr xs ++ [']']).length = (dumpArr xs).length + 1 := by
        simp
      cases xs with
      | nil =>
        have h0 : jsizeL ([] : List Json) = 0 := rfl
        omega
      | cons x xs' =>
        have hlt : jsizeL (x :: xs') < N := by omega
        have h2 := (IH (jsizeL (x :: xs')) hlt).2.1 (x :: xs') (le_refl _)
          (List.cons_ne_nil x xs')
        omega
    | obj kvs =>
      have hj : jsizeV (.obj kvs) = 1 + jsizeM kvs := rfl
      have hL : (dumpVal (.obj kvs)).length =
          (dumpObj kvs ++ ['\x7d']).length + 1 := rfl
      have hL2 : (dumpObj kvs ++ ['\x7d']).length = (dumpObj kvs).length + 1 :=
        by simp
      cases kvs with
      | nil =>
        have h0 : jsizeM ([] : List (String × Json)) = 0 := rfl
        omega
      | cons m ms =>
        have hlt : jsizeM (m :: ms) < N := by omega
        have h2 := (IH (jsizeM (m :: ms)) hlt).2.2 (m :: ms) (le_refl _)
          (List.cons_ne_nil m ms)
        omega
  · intro xs hN hne
    cases xs with
    | nil => exact absurd rfl hne
    | cons x xs' =>
    have hsz : jsizeL (x :: xs') = 1 + jsizeV x + jsizeL xs' := rfl
    have hxpos := jsizeV_pos x
    have hlt1 : jsizeV x < N := by omega
    have h1 := (IH (jsizeV x) hlt1).1 x (le_refl _)
    cases xs' with
    | nil =>
      have hd : dumpArr [x] = dumpVal x := rfl
      have h0 : jsizeL ([] : List Json) = 0 := rfl
      rw [hd]
      omega
    | cons y ys =>
      have hsz2 : jsizeL (y :: ys) = 1 + jsizeV y + jsizeL ys := rfl
      have hypos := jsizeV_pos y
      have hlt2 : jsizeL (y :: ys) < N := by omega
      have h2 := (IH (jsizeL (y :: ys)) hlt2).2.1 (y :: ys) (le_refl _)
        (List.cons_ne_nil y ys)
      have hL : (dumpArr (x :: y :: ys)).length =
          (dumpVal x).length + ((dumpArr (y :: ys)).length + 2) := by
        rw [show dumpArr (x :: y :: ys) =
          dumpVal x ++ ',' :: ' ' :: dumpArr (y :: ys) from rfl]
        simp_arith
      omega
  · intro kvs hN hne
    cases kvs with
    | nil => exact absurd rfl hne
    | cons m ms =>
    obtain ⟨k, v⟩ := m
    have hsz : jsizeM ((k, v) :: ms) = 1 + jsizeV v + jsizeM ms := rfl
    have hvpos := jsizeV_pos v
    have hlt1 : jsizeV v < N := by omega
    have h1 := (IH (jsizeV v) hlt1).1 v (le_refl _)
    cases ms with
    | nil =>
      have h0 : jsizeM ([] : List (String × Json)) = 0 := rfl
      have hL : (dumpObj [(k, v)]).length =
          ((escChars k.data).length + ((dumpVal v).length + 3)) + 1 := by
        rw [show dumpObj [(k, v)] =
          '"' :: (escChars k.data ++ '"' :: ':' :: ' ' :: dumpVal v) from rfl]
        simp_arith
      omega
    | cons m2 ms' =>
      have hsz2 : jsizeM (m2 :: ms') = 1 + jsizeV m2.2 + jsizeM ms' := rfl
      have hm2pos := jsizeV_pos m2.2
      have hlt2 : jsizeM (m2 :: ms') < N := by omega
      have h2 := (IH (jsizeM (m2 :: ms')) hlt2).2.2 (m2 :: ms') (le_refl _)
        (List.cons_ne_nil m2 ms')
      have hL : (dumpObj ((k, v) :: m2 :: ms')).length =
          (((escChars k.data).length + ((dumpVal v).length + 3)) + 1) +
            ((dumpObj (m2 :: ms')).length + 2) := by
        rw [show dumpObj ((k, v) :: m2 :: ms') =
          ('"' :: (escChars k.data ++ '"' :: ':' :: ' ' :: dumpVal v)) ++
            ',' :: ' ' :: dumpObj (m2 :: ms') from rfl]
        simp_arith
      omega

/-- A well-formed value survives the full round trip: serializing with
`json.dumps` and re-parsing with `json.loads` restores it exactly. -/
theorem loads_dumps (d : Json) (hwf : wfV d = true) : loads (dumps d) = .ok d := by
  have hsize := (dump_size (jsizeV d)).1 d (le_refl _)
  have h := (parse_dump (jsizeV d)).1 d (le_refl _) hwf
    ((dumpVal d).length + 1) [] (by omega) rfl
  rw [List.append_nil] at h
  simp only [loads]
  rw [show (dumps d).data = dumpVal d from rfl, h]
  rfl

/-! ## Claim C7: the parser and the loop preserve key uniqueness -/

theorem wfL_append_singleton (acc : List Json) (v : Json)
    (ha : wfL acc = true) (hv : wfV v = true) : wfL (acc ++ [v]) = true := by
  induction acc with
  | nil =>
    show (wfV v && wfL []) = true
    rw [hv]
    rfl
  | cons x xs ih =>
    have h' : (wfV x && wfL xs) = true := ha
    rw [Bool.and_eq_true] at h'
    show (wfV x && wfL (xs ++ [v])) = true
    rw [h'.1, ih h'.2]
    rfl

theorem wfM_setKey (acc : List (String × Json)) (k : String) (v : Json)
    (ha : wfM acc = true) (hv : wfV v = true) : wfM (setKey acc k v) = true := by
  induction acc with
  | nil =>
    show (wfV v && wfM []) = true
    rw [hv]
    rfl
  | cons kv rest ih =>
    obtain ⟨k', v'⟩ := kv
    have h' : (wfV v' && wfM rest) = true := ha
    rw [Bool.and_eq_true] at h'
    rw [setKey]
    by_cases he : k' = k
    · rw [if_pos he]
      show (wfV v && wfM rest) = true
      rw [hv, h'.2]
      rfl
    · rw [if_neg he]
      show (wfV v' && wfM (setKey rest k v)) = true
      rw [h'.1, ih h'.2]
      rfl

theorem keysOf_setKey (acc : List (String × Json)) (k : String) (v : Json) :
    keysOf (setKey acc k v) =
      if strMem k (keysOf acc) = true then keysOf acc
      else keysOf acc ++ [k] := by
  induction acc with
  | nil => simp [setKey, keysOf, strMem]
  | cons kv rest ih =>
    obtain ⟨k', v'⟩ := kv
    by_cases he : k' = k
    · subst he
      rw [setKey, if_pos rfl]
      have hm : strMem k' (keysOf ((k', v') :: rest)) = true := by
        show (decide (k' = k') || strMem k' (keysOf rest)) = true
        simp
      rw [if_pos hm]
      rfl
    · rw [setKey, if_neg he,
        show keysOf ((k', v') :: setKey rest k v) =
          k' :: keysOf (setKey rest k v) from rfl, ih]
      have hm : strMem k (keysOf ((k', v') :: rest)) =
          strMem k (keysOf rest) := by
        show (decide (k = k') || strMem k (keysOf rest)) = _
        rw [decide_eq_false (fun h => he h.symm)]
        rfl
      rw [hm]
      by_cases hs : strMem k (keysOf rest) = true
      · rw [if_pos hs, if_pos hs]
        rfl
      · rw [if_neg hs, if_neg hs]
        rfl

theorem strNodup_append_singleton (xs : List String) (k : String)
    (h : strNodup xs = true) (hf : strMem k xs = false) :
    strNodup (xs ++ [k]) = true := by
  induction xs with
  | nil => rfl
  | cons x xs ih =>
    have h' : (!strMem x xs && strNodup xs) = true := h
    rw [Bool.and_eq_true, Bool.not_eq_true'] at h'
    have hf' : (decide (k = x) || strMem k xs) = false := hf
    rw [Bool.or_eq_false_iff, decide_eq_false_iff_not] at hf'
    show (!strMem x (xs ++ [k]) && strNodup (xs ++ [k])) = true
    rw [strMem_append, ih h'.2 hf'.2, h'.1]
    have hxk : strMem x [k] = false := by
      show (decide (x = k) || false) = false
      rw [decide_eq_false (fun he => hf'.1 he.symm)]
      rfl
    rw [hxk]
    rfl

theorem strNodup_setKey (acc : List (String × Json)) (k : String) (v : Json)
    (h : strNodup (keysOf acc) = true) :
    strNodup (keysOf (setKey acc k v)) = true := by
  rw [keysOf_setKey]
  by_cases hs : strMem k (keysOf acc) = true
  · rw [if_pos hs]
    exact h
  · rw [if_neg hs]
    exact strNodup_append_singleton _ k h (Bool.eq_false_iff.mpr hs)

theorem parseNumAt_wf (cs : List Char) (v : Json) (r : List Char)
    (h : parseNumAt cs = .ok (v, r)) : wfV v = true := by
  match cs with
  | [] => cases h
  | c :: cs =>
    simp only [parseNumAt] at h
    split at h
    · split at h
      · cases h
        rfl
      · cases h
    · split at h
      · cases h
        rfl
      · cases h

theorem bool_and_intro (a b : Bool) (ha : a = true) (hb : b = true) :
    (a && b) = true := by
  rw [ha, hb]
  rfl

/-- Every value the parser produces has unique keys in each of its
objects: members are accumulated by dict assignment. -/
theorem parser_wf (fuel : Nat) :
    (∀ cs v r, parseVal fuel cs = .ok (v, r) → wfV v = true) ∧
    (∀ cs acc a r, wfL acc = true → parseElems fuel cs acc = .ok (a, r) →
      wfV a = true) ∧
    (∀ cs acc a r, wfM acc = true → strNodup (keysOf acc) = true →
      parseMembers fuel cs acc = .ok (a, r) → wfV a = true) := by
  induction fuel with
  | zero =>
    refine ⟨?_, ?_, ?_⟩
    · intro cs v r h
      cases h
    · intro cs acc a r _ h
      cases h
    · intro cs acc a r _ _ h
      cases h
  | succ f ih =>
    obtain ⟨ihV, ihE, ihM⟩ := ih
    refine ⟨?_, ?_, ?_⟩
    · intro cs v r h
      simp only [parseVal] at h
      repeat' split at h
      all_goals
        first
          | (cases h; rfl)
          | (cases h; done)
          | exact ihM _ [] v r rfl rfl h
          | exact ihE _ [] v r rfl h
          | exact parseNumAt_wf _ _ _ h
    · intro cs acc a r hacc h
      simp only [parseElems] at h
      repeat' split at h
      all_goals
        first
          | (cases h; done)
          | exact ihE _ _ a r
              (wfL_append_singleton _ _ hacc (ihV _ _ _ (by assumption))) h
          | (cases h;
             exact wfL_append_singleton _ _ hacc (ihV _ _ _ (by assumption)))
    · intro cs acc a r hacc hnd h
      simp only [parseMembers] at h
      repeat' split at h
      all_goals
        first
          | (cases h; done)
          | exact ihM _ _ a r
              (wfM_setKey _ _ _ hacc (ihV _ _ _ (by assumption)))
              (strNodup_setKey _ _ _ hnd) h
          | (cases h;
             exact bool_and_intro _ _ (strNodup_setKey _ _ _ hnd)
               (wfM_setKey _ _ _ hacc (ihV _ _ _ (by assumption))))

/-- `json.loads` only returns values with unique keys in every object. -/
theorem loads_wf (s : String) (d : Json) (h : loads s = .ok d) :
    wfV d = true := by
  simp only [loads] at h
  repeat' split at h
  all_goals
    first
      | (cases h; done)
      | (cases h; exact (parser_wf _).1 _ _ _ (by assumption))

theorem getKey_wf (kvs : List (String × Json)) (k : String) (v : Json)
    (hm : wfM kvs = true) (h : getKey kvs k = some v) : wfV v = true := by
  induction kvs with
  | nil => cases h
  | cons kv rest ih =>
    obtain ⟨k', v'⟩ := kv
    have h2 : (wfV v' && wfM rest) = true := hm
    rw [Bool.and_eq_true] at h2
    rw [getKey] at h
    by_cases he : k' = k
    · rw [if_pos he] at h
      cases h
      exact h2.1
    · rw [if_neg he] at h
      exact ih h2.2 h

/-- The stamping loop preserves unique keys: it only rewrites the
`id` member of each element by dict assignment. -/
theorem stampFrom_wf (xs : List Json) (i : Nat) (ys : List Json)
    (h : stampFrom i xs = .ok ys) (hw : wfL xs = true) : wfL ys = true := by
  induction xs generalizing i ys with
  | nil =>
    cases h
    rfl
  | cons x rest ih =>
    have h2 : (wfV x && wfL rest) = true := hw
    rw [Bool.and_eq_true] at h2
    cases x with
    | null => cases h
    | bool b => cases h
    | num n => cases h
    | str s => cases h
    | arr l => cases h
    | obj kvs =>
      have h3 : (strNodup (keysOf kvs) && wfM kvs) = true := h2.1
      rw [Bool.and_eq_true] at h3
      simp only [stampFrom] at h
      split at h
      · cases h
      · rename_i ys0 heq
        cases h
        show (wfV (.obj (setKey kvs "id" (.num i))) && wfL ys0) = true
        exact bool_and_intro _ _
          (bool_and_intro _ _ (strNodup_setKey _ _ _ h3.1)
            (wfM_setKey _ _ _ h3.2 rfl)) (ih _ _ heq h2.2)
  -- non-object heads reduce to a type error, refuting the hypothesis

/-- Reindexing preserves unique keys in every object. -/
theorem reindex_wf (d d' : Json) (h : reindex d = .ok d')
    (hw : wfV d = true) : wfV d' = true := by
  cases d with
  | null => cases h
  | bool b => cases h
  | num n => cases h
  | str s => cases h
  | arr l => cases h
  | obj kvs =>
    have h2 : (strNodup (keysOf kvs) && wfM kvs) = true := hw
    rw [Bool.and_eq_true] at h2
    simp only [reindex] at h
    split at h
    · cases h
    · rename_i p heq
      split at h
      · cases h
      · rename_i xs heq2
        split at h
        · cases h
        · rename_i ys heq3
          have hpw : wfV p = true := getKey_wf kvs "portfolio" p h2.2 heq
          split at h
          all_goals
            first
              | (cases h; exact hw)
              | (rename_i xs0
                 cases h
                 cases heq2
                 exact bool_and_intro _ _ (strNodup_setKey _ _ _ h2.1)
                   (wfM_setKey _ _ _ h2.2 (stampFrom_wf _ 0 _ heq3 hpw)))

/-- C7: Round-trip — for every JSON document produced by the reindex
transformation (applied, as in the script, to a document parsed by
`json.loads`), serializing it with `json.dumps` and re-parsing that
text with `json.loads` yields a document structurally equal to the
in-memory document. -/
theorem claim_C7_round_trip (content : String) (d d' : Json)
    (hl : loads content = .ok d) (hr : reindex d = .ok d') :
    loads (dumps d') = .ok d' :=
  loads_dumps d' (reindex_wf d d' hr (loads_wf content d hl))

theorem claim_C7_witness :
    loads "\x7b\"portfolio\": [\x7b\"a\": 1\x7d]\x7d" =
      .ok (.obj [("portfolio", .arr [.obj [("a", .num 1)]])]) ∧
    reindex (.obj [("portfolio", .arr [.obj [("a", .num 1)]])]) =
      .ok (.obj [("portfolio",
        .arr [.obj [("a", .num 1), ("id", .num 0)]])]) ∧
    loads (dumps (.obj [("portfolio",
        .arr [.obj [("a", .num 1), ("id", .num 0)]])])) =
      .ok (.obj [("portfolio",
        .arr [.obj [("a", .num 1), ("id", .num 0)]])]) :=
  ⟨rfl, rfl,
    claim_C7_round_trip "\x7b\"portfolio\": [\x7b\"a\": 1\x7d]\x7d" _ _ rfl rfl⟩
